import Mathlib

/-!
Verification of the rgzip core: a shallow embedding of the repository's
Huffman coding engine (`src/huffman.rs`, `src/huffman/huffman_node.rs`,
`src/huffman/huffman_tree.rs`, `src/huffman/huffman_lut.rs`), the historical
duplicate builder in `src/lib.rs`, and the gzip member parser in
`src/configuration.rs` (`decompress`).

Modelling conventions:
- `Bit::Zero` is `false`, `Bit::One` is `true`; `Bits` (a `VecDeque<Bit>`)
  is a `List Bool` whose head is the deque's front.
- `u8` symbols are `Nat`; `i32` weights, lengths and code values are `Int`.
  The code arithmetic of `build_lengths_codes`/`build_lookup_table` is
  modelled with release-mode `i32` semantics: results wrap into
  `[-2^31, 2^31)` (`wrap32`), and the shift amount of `1 << i` is reduced
  modulo the bit width.
- Rust panics (`expect`, `panic!`) and `Err` returns become `Option`/`Except`
  failures; each distinct failure message gets its own error constructor.
- `BTreeMap` is a key-sorted association list (`alGet`/`alInsert`);
  iteration over `keys()` is iteration over the list.
- Rust's `std::collections::BinaryHeap` (a binary max-heap over a `Vec`,
  with `collect` heapifying via `sift_down`, `push` via `sift_up`, and `pop`
  swapping the last element to the root and running `sift_down_to_bottom`)
  is modelled index-faithfully.  Loops are written as structural recursion
  on an explicit iteration bound (`gas`) that provably dominates the loop
  variant, so every function computes by kernel reduction.
-/

instance instDecEqExcept {ε α : Type} [DecidableEq ε] [DecidableEq α] :
    DecidableEq (Except ε α) := fun x y =>
  match x, y with
  | .ok a, .ok b =>
    if h : a = b then isTrue (by subst h; rfl) else isFalse (fun hh => h (Except.ok.inj hh))
  | .error a, .error b =>
    if h : a = b then isTrue (by subst h; rfl) else isFalse (fun hh => h (Except.error.inj hh))
  | .ok _, .error _ => isFalse (fun hh => Except.noConfusion hh)
  | .error _, .ok _ => isFalse (fun hh => Except.noConfusion hh)

/-- `u8` symbol values (`SymbolType` / `Byte` in the source). -/
abbrev SymbolType := Nat

/-- `SymbolWeightPair { symbol: u8, weight: i32 }`. -/
structure SymbolWeightPair where
  symbol : SymbolType
  weight : Int
deriving DecidableEq, Repr

/-- `SymbolLengthPair { symbol: u8, length: i32 }`. -/
structure SymbolLengthPair where
  symbol : SymbolType
  length : Int
deriving DecidableEq, Repr

/-- `HuffmanNode` from `huffman_node.rs`: `Inode` holds two owned children
and a cached weight, `Lnode` a symbol and weight. -/
inductive HuffmanNode where
  | inode (left_child right_child : HuffmanNode) (cached_weight : Int)
  | lnode (symbol : SymbolType) (weight : Int)
deriving DecidableEq, Repr

/-- `HuffmanNode::weight`. -/
def HuffmanNode.weight : HuffmanNode → Int
  | .inode _ _ w => w
  | .lnode _ w => w

/-- `HuffmanNode::decode`: at an internal node pop the front bit (`Zero` =
left, `One` = right) and recurse; at a leaf return the symbol and the
remaining bits.  The `expect("Not enough bits to decode")` panic on an empty
deque is modelled as `none`. -/
def HuffmanNode.decode : HuffmanNode → List Bool → Option (SymbolType × List Bool)
  | .inode l r _, bits =>
    match bits with
    | [] => none
    | b :: rest => (if b then r else l).decode rest
  | .lnode s _, bits => some (s, bits)

/-- The subtree reached from a node by consuming the whole bit path; `none`
when the path walks through (or past) a leaf. -/
def subtreeAt : HuffmanNode → List Bool → Option HuffmanNode
  | t, [] => some t
  | .inode l r _, b :: rest => subtreeAt (if b then r else l) rest
  | .lnode _ _, _ :: _ => none

/-- Array indexing inside the heap (all accesses are in range in the source;
the default is never reached under the call discipline proved below). -/
def hget (data : List HuffmanNode) (i : Nat) : HuffmanNode :=
  data.getD i (.lnode 0 0)

/-- `BinaryHeap::sift_up(0, pos)` with held element `elt`: while the hole is
below the root and the element is greater than its parent, move the parent
down; finally place the element.  `gas ≥ pos` bounds the iteration count
(the hole index strictly decreases), so `gas := pos` is exact. -/
def siftUpGo (le : HuffmanNode → HuffmanNode → Bool) :
    Nat → List HuffmanNode → HuffmanNode → Nat → List HuffmanNode
  | 0, data, elt, pos => data.set pos elt
  | gas + 1, data, elt, pos =>
    if 0 < pos then
      let parent := (pos - 1) / 2
      if le elt (hget data parent) then data.set pos elt
      else siftUpGo le gas (data.set pos (hget data parent)) elt parent
    else data.set pos elt

/-- `BinaryHeap::sift_down_range(pos, endd)` with held element `elt`: pick
the greater child (the right one when `left <= right`), stop when the element
is not smaller, else move the child up and descend.  `gas ≥ endd - pos`
bounds the iterations. -/
def siftDownGo (le : HuffmanNode → HuffmanNode → Bool) :
    Nat → List HuffmanNode → HuffmanNode → Nat → Nat → List HuffmanNode
  | 0, data, elt, pos, _ => data.set pos elt
  | gas + 1, data, elt, pos, endd =>
    let c0 := 2 * pos + 1
    if c0 < endd then
      let c := if c0 + 1 < endd && le (hget data c0) (hget data (c0 + 1)) then c0 + 1 else c0
      if le (hget data c) elt then data.set pos elt
      else siftDownGo le gas (data.set pos (hget data c)) elt c endd
    else data.set pos elt

/-- `BinaryHeap::sift_down_to_bottom(0)` with held element `elt`: descend to
the bottom always following the greater child, then `sift_up` the held
element from the final hole position. -/
def siftDownToBottomGo (le : HuffmanNode → HuffmanNode → Bool) :
    Nat → List HuffmanNode → HuffmanNode → Nat → Nat → List HuffmanNode
  | 0, data, elt, pos, _ => siftUpGo le pos data elt pos
  | gas + 1, data, elt, pos, endd =>
    let c0 := 2 * pos + 1
    if c0 < endd then
      let c := if c0 + 1 < endd && le (hget data c0) (hget data (c0 + 1)) then c0 + 1 else c0
      siftDownToBottomGo le gas (data.set pos (hget data c)) elt c endd
    else siftUpGo le pos data elt pos

/-- `BinaryHeap::push`: append, then sift the new element up from the old
last index. -/
def heapPush (le : HuffmanNode → HuffmanNode → Bool)
    (data : List HuffmanNode) (item : HuffmanNode) : List HuffmanNode :=
  siftUpGo le data.length (data ++ [item]) item data.length

/-- `BinaryHeap::pop`: remove the last element; if the heap is still
nonempty swap it with the root and sift the swapped-in element down to the
bottom; return the old root. -/
def heapPop (le : HuffmanNode → HuffmanNode → Bool)
    (data : List HuffmanNode) : Option (HuffmanNode × List HuffmanNode) :=
  match data.getLast? with
  | none => none
  | some last =>
    let rest := data.dropLast
    if rest.isEmpty then some (last, rest)
    else some (hget rest 0, siftDownToBottomGo le rest.length (rest.set 0 last) last 0 rest.length)

/-- `BinaryHeap::rebuild` (run by `From<Vec>` behind `collect`): sift down
at indices `len/2 - 1, …, 0`. -/
def rebuildGo (le : HuffmanNode → HuffmanNode → Bool) :
    List HuffmanNode → Nat → List HuffmanNode
  | data, 0 => data
  | data, n + 1 => rebuildGo le (siftDownGo le data.length data (hget data n) n data.length) n

/-- `BinaryHeap::from(vec)` / `collect::<BinaryHeap<_>>()`. -/
def heapify (le : HuffmanNode → HuffmanNode → Bool)
    (xs : List HuffmanNode) : List HuffmanNode :=
  rebuildGo le xs (xs.length / 2)

/-- The `while forest.len() > 1` merge loop shared by both builders: pop two
nodes, combine them into an `Inode` (first pop = left child) whose cached
weight is the sum, push it back.  `gas ≥ data.length` bounds the iterations
(each one shrinks the heap by exactly one). -/
def mergeLoop (le : HuffmanNode → HuffmanNode → Bool) :
    Nat → List HuffmanNode → List HuffmanNode
  | 0, data => data
  | gas + 1, data =>
    if 1 < data.length then
      match heapPop le data with
      | none => data
      | some (a, d1) =>
        match heapPop le d1 with
        | none => d1
        | some (b, d2) => mergeLoop le gas (heapPush le d2 (.inode a b (a.weight + b.weight)))
    else data

/-- `HuffmanTree { symbol_weight_pairs, tree }`. -/
structure HuffmanTree where
  symbol_weight_pairs : List SymbolWeightPair
  tree : HuffmanNode
deriving DecidableEq, Repr

/-- Failures of the weight-driven builders: the
`panic!("forest is too small to build a huffman tree")` guard, and the final
`forest.pop().unwrap()` (unreachable, kept as its own constructor). -/
inductive TreeBuildError where
  | insufficientSymbols
  | emptyForestPop
deriving DecidableEq, Repr

/-- Heap order of `huffman_tree.rs`: `WrappedHuffmanNode`'s `Ord` reverses
the weight comparison to mimic a min-heap (`a <= b ⇔ b.weight ≤ a.weight`). -/
def leMin (a b : HuffmanNode) : Bool := b.weight ≤ a.weight

/-- Heap order of the historical `lib.rs` builder: `HuffmanNode`'s own `Ord`
compares weights directly, so the heap is a max-heap. -/
def leMax (a b : HuffmanNode) : Bool := a.weight ≤ b.weight

/-- The merge algorithm shared by both `build_huffman_tree` versions,
parameterised by the heap order: collect one leaf per record into a heap,
fail when fewer than two items are present, merge until one tree remains. -/
def buildWeighted (le : HuffmanNode → HuffmanNode → Bool)
    (symbol_weight_pairs : List SymbolWeightPair) : Except TreeBuildError HuffmanTree :=
  let forest := heapify le (symbol_weight_pairs.map (fun p => .lnode p.symbol p.weight))
  if forest.length < 2 then .error .insufficientSymbols
  else
    match heapPop le (mergeLoop le forest.length forest) with
    | some (t, _) => .ok ⟨symbol_weight_pairs, t⟩
    | none => .error .emptyForestPop

/-- `HuffmanTree::build_huffman_tree` from `huffman/huffman_tree.rs`
(min-heap via `WrappedHuffmanNode`). -/
def buildHuffmanTree (pairs : List SymbolWeightPair) : Except TreeBuildError HuffmanTree :=
  buildWeighted leMin pairs

/-- The historical duplicate `HuffmanTree::build_huffman_tree` from `lib.rs`
(`BinaryHeap<HuffmanNode>` with the direct weight order, i.e. a max-heap). -/
def buildHuffmanTreeLib (pairs : List SymbolWeightPair) : Except TreeBuildError HuffmanTree :=
  buildWeighted leMax pairs

example : buildHuffmanTree [⟨65, 10⟩, ⟨66, 20⟩, ⟨67, 5⟩] =
    .ok ⟨[⟨65, 10⟩, ⟨66, 20⟩, ⟨67, 5⟩],
      .inode (.inode (.lnode 67 5) (.lnode 65 10) 15) (.lnode 66 20) 35⟩ := by decide

example : buildHuffmanTreeLib [⟨65, 10⟩, ⟨66, 20⟩, ⟨67, 5⟩] =
    .ok ⟨[⟨65, 10⟩, ⟨66, 20⟩, ⟨67, 5⟩],
      .inode (.inode (.lnode 66 20) (.lnode 65 10) 30) (.lnode 67 5) 35⟩ := by decide

/-- The header fields read by `decompress` in `configuration.rs`; each is
consumed by a `bytes.next().expect(...)` whose panic is a distinct
truncation failure. -/
inductive GzipField where
  | id1
  | id2
  | cm
  | flg
  | mtime
  | xfl
  | os
  | blockHeader
deriving DecidableEq, Repr

/-- Failures of `decompress` (`configuration.rs` lines 70-132): `truncated f`
models the `expect` panic while reading field `f` ("TruncatedHeader" /
"TruncatedInput" in the specification's taxonomy); the remaining
constructors model the `Err(..)` returns and `panic!`s, one per message. -/
inductive GzipError where
  | truncated (f : GzipField)
  | invalidID1
  | invalidID2
  | unsupportedCompressionMethod
  | unsupportedFlags
  | unsupportedOperatingSystem
  | invalidFilenameEncoding
  | multiBlockUnsupported
  | reservedBlockType
deriving DecidableEq, Repr

/-- DEFLATE block types.  Modelled from the spec: the source's `match` on
`(btype_0_set, btype_1_set)` has empty arms for the accepted cases, so the
enum identification follows the spec's `DeflateBlockHeader` data model
(3 bits, LSB-first: bit 1 of the byte is the low BTYPE bit). -/
inductive BlockType where
  | stored
  | fixedHuffman
  | dynamicHuffman
  | reserved
deriving DecidableEq, Repr

/-- `DeflateBlockHeader {final, blockType}` (spec data model; the source
computes `bfinal_set`, `btype_0_set`, `btype_1_set`). -/
structure BlockHeader where
  final : Bool
  blockType : BlockType
deriving DecidableEq, Repr

/-- The parsed gzip member as far as `decompress` gets: the original
filename bytes (UTF-8 validity is checked; the decoded string itself is
unused downstream) and the DEFLATE block header. -/
structure GzipMember where
  filename : List Nat
  blockHeader : BlockHeader
deriving DecidableEq, Repr

/-- `configuration.rs` lines 117-132: read the block-header byte's three low
bits (`header & 1`, `header >> 1 & 1`, `header >> 2 & 1`), reject BFINAL = 0
(`panic!("This implementation only supports one block ...")`) and then
BTYPE = 11 (`panic!("BTYPE is 11")`); otherwise accept. -/
def parseBlockHeader (b : Nat) : Except GzipError BlockHeader :=
  let bfinal_set := b % 2 = 1
  let btype_0_set := (b >>> 1) % 2 = 1
  let btype_1_set := (b >>> 2) % 2 = 1
  if ¬ bfinal_set then .error .multiBlockUnsupported
  else if btype_0_set ∧ btype_1_set then .error .reservedBlockType
  else .ok
    { final := bfinal_set
      blockType :=
        if btype_1_set then (if btype_0_set then .reserved else .dynamicHuffman)
        else (if btype_0_set then .fixedHuffman else .stored) }

/-- The `while let Some(byte) = bytes.next()` filename loop: collect bytes
until a zero byte (consumed, excluded from the name) or until the cursor is
exhausted (the loop then simply ends, with no error). -/
def readFilenameBytes : List Nat → List Nat × List Nat
  | [] => ([], [])
  | b :: rest =>
    if b = 0 then ([], rest)
    else
      let (fn, r) := readFilenameBytes rest
      (b :: fn, r)

/-- Continuation byte `0x80..=0xBF`. -/
def isCont (b : Nat) : Bool := 0x80 ≤ b && b ≤ 0xBF

/-- `str::from_utf8` validity (Rust's exact acceptance ranges, rejecting
overlong encodings, surrogates and values above `0x10FFFF`). -/
def validUtf8 : List Nat → Bool
  | [] => true
  | b :: rest =>
    if b ≤ 0x7F then validUtf8 rest
    else if 0xC2 ≤ b && b ≤ 0xDF then
      match rest with
      | c1 :: r => isCont c1 && validUtf8 r
      | [] => false
    else if b = 0xE0 then
      match rest with
      | c1 :: c2 :: r => (0xA0 ≤ c1 && c1 ≤ 0xBF) && isCont c2 && validUtf8 r
      | _ => false
    else if (0xE1 ≤ b && b ≤ 0xEC) || b = 0xEE || b = 0xEF then
      match rest with
      | c1 :: c2 :: r => isCont c1 && isCont c2 && validUtf8 r
      | _ => false
    else if b = 0xED then
      match rest with
      | c1 :: c2 :: r => (0x80 ≤ c1 && c1 ≤ 0x9F) && isCont c2 && validUtf8 r
      | _ => false
    else if b = 0xF0 then
      match rest with
      | c1 :: c2 :: c3 :: r => (0x90 ≤ c1 && c1 ≤ 0xBF) && isCont c2 && isCont c3 && validUtf8 r
      | _ => false
    else if 0xF1 ≤ b && b ≤ 0xF3 then
      match rest with
      | c1 :: c2 :: c3 :: r => isCont c1 && isCont c2 && isCont c3 && validUtf8 r
      | _ => false
    else if b = 0xF4 then
      match rest with
      | c1 :: c2 :: c3 :: r => (0x80 ≤ c1 && c1 ≤ 0x8F) && isCont c2 && isCont c3 && validUtf8 r
      | _ => false
    else false

/-- `decompress` from `configuration.rs` (lines 66-138), after the file has
been read into `bytes`: sequentially consume ID1 (`0x1F`), ID2 (`0x8B`),
CM (`8`), FLG (`8`), four MTIME bytes, XFL (any), OS (`3`), the
zero-terminated filename (UTF-8 checked), then the block-header byte. -/
def parseMember (bytes : List Nat) : Except GzipError GzipMember :=
  match bytes with
  | [] => .error (.truncated .id1)
  | id1 :: r1 =>
    if id1 ≠ 0x1f then .error .invalidID1
    else
      match r1 with
      | [] => .error (.truncated .id2)
      | id2 :: r2 =>
        if id2 ≠ 0x8b then .error .invalidID2
        else
          match r2 with
          | [] => .error (.truncated .cm)
          | cm :: r3 =>
            if cm ≠ 0x8 then .error .unsupportedCompressionMethod
            else
              match r3 with
              | [] => .error (.truncated .flg)
              | flg :: r4 =>
                if flg ≠ 0x8 then .error .unsupportedFlags
                else
                  match r4 with
                  | [] => .error (.truncated .mtime)
                  | _ :: r5 =>
                    match r5 with
                    | [] => .error (.truncated .mtime)
                    | _ :: r6 =>
                      match r6 with
                      | [] => .error (.truncated .mtime)
                      | _ :: r7 =>
                        match r7 with
                        | [] => .error (.truncated .mtime)
                        | _ :: r8 =>
                          match r8 with
                          | [] => .error (.truncated .xfl)
                          | _ :: r9 =>
                            match r9 with
                            | [] => .error (.truncated .os)
                            | os :: r10 =>
                              if os ≠ 0x3 then .error .unsupportedOperatingSystem
                              else
                                let fr := readFilenameBytes r10
                                if ¬ validUtf8 fr.1 then .error .invalidFilenameEncoding
                                else
                                  match fr.2 with
                                  | [] => .error (.truncated .blockHeader)
                                  | b :: _ =>
                                    (parseBlockHeader b).map (fun bh => ⟨fr.1, bh⟩)

example : parseMember [0x1f, 0x8b, 8, 8, 0, 0, 0, 0, 0, 3, 97, 0, 3] =
    .ok ⟨[97], ⟨true, .fixedHuffman⟩⟩ := by decide

example : parseMember [0x1f, 0x8b, 7] = .error .unsupportedCompressionMethod := by decide

example : parseMember [0x1f, 0x8b, 8, 8, 0, 0, 0, 0, 0, 3, 255] =
    .error .invalidFilenameEncoding := by decide

example : parseMember [0x1f, 0x8b, 8, 8, 0, 0, 0, 0, 0, 3, 97] =
    .error (.truncated .blockHeader) := by decide

/-- `BTreeMap::get`: look a key up in an association list. -/
def alGet {κ β : Type} [DecidableEq κ] (k : κ) : List (κ × β) → Option β
  | [] => none
  | (k1, v) :: t => if k = k1 then some v else alGet k t

/-- `BTreeMap::insert`: insert into a key-sorted association list,
replacing an existing binding. -/
def alInsert {κ β : Type} [LinearOrder κ] (k : κ) (v : β) :
    List (κ × β) → List (κ × β)
  | [] => [(k, v)]
  | (k1, v1) :: t =>
    if k < k1 then (k, v) :: (k1, v1) :: t
    else if k = k1 then (k, v) :: t
    else (k1, v1) :: alInsert k v t

/-- The counting fold of `HuffmanLUT::build_lengths_counts`:
`*lengths_counts.entry(length).or_insert(0) += 1` over the records in
order. -/
def countsGo : List SymbolLengthPair → List (Int × Int) → List (Int × Int)
  | [], m => m
  | p :: rest, m => countsGo rest (alInsert p.length ((alGet p.length m).getD 0 + 1) m)

/-- `HuffmanLUT::build_lengths_counts`: count the records per length, then
`lengths_counts.insert(0, 0)` (note: this overwrites any tally of genuine
length-0 records). -/
def buildLengthsCounts (pairs : List SymbolLengthPair) : List (Int × Int) :=
  alInsert 0 0 (countsGo pairs [])

/-- Two's-complement reduction of an `i32` result into `[-2^31, 2^31)`:
release-mode Rust arithmetic on `i32` wraps at 32 bits. -/
def wrap32 (v : Int) : Int := (v + 2147483648) % 4294967296 - 2147483648

/-- The key loop of `HuffmanLUT::build_lengths_codes`: for each key of the
counts map in ascending order, `code = (code + counts[previous]) << 1`
(an `i32` computation, so the result wraps at 32 bits), record
`(key, code)`, set `previous = key`.  The `unwrap` on the lookup of
`previous` is modelled as `none`. -/
def codesGo (counts : List (Int × Int)) :
    List Int → Int → Int → Option (List (Int × Int))
  | [], _, _ => some []
  | l :: ks, code, previous =>
    match alGet previous counts with
    | none => none
    | some cp =>
      let c := wrap32 ((code + cp) * 2)
      match codesGo counts ks c l with
      | none => none
      | some m => some ((l, c) :: m)

/-- `HuffmanLUT::build_lengths_codes`. -/
def buildLengthsCodes (counts : List (Int × Int)) : Option (List (Int × Int)) :=
  codesGo counts (counts.map (·.1)) 0 0

/-- Bit `i` of the two's-complement value `v`
(`numerical_code & (1 << i) != 0`; `/` and `%` on `Int` are Euclidean, which
extracts exactly the two's-complement bit). -/
def intBit (v : Int) (i : Nat) : Bool := v / 2 ^ i % 2 == 1

/-- The inner rendering loop of `build_lookup_table`: push bits of
`numerical_code` for `i = length-1, …, 0` (empty when `length ≤ 0`, since
the `while i >= 0` loop never runs).  The bit test is
`numerical_code & (1 << i)` on `i32`, so in release mode the shift amount
is reduced modulo the bit width 32. -/
def codeBits (length : Int) (v : Int) : List Bool :=
  (List.range length.toNat).map (fun k => intBit v ((length.toNat - 1 - k) % 32))

/-- The record loop of `HuffmanLUT::build_lookup_table`: for each record in
input order, read the current code for its length (`get_mut(&length)`,
`unwrap` modelled as `none`), render it as `length` bits most-significant
first, store it under the symbol, and increment the code (an `i32`
increment, wrapping at 32 bits). -/
def lutGo : List SymbolLengthPair → List (Int × Int) → List (Nat × List Bool) →
    Option (List (Nat × List Bool) × List (Int × Int))
  | [], codes, tbl => some (tbl, codes)
  | p :: rest, codes, tbl =>
    match alGet p.length codes with
    | none => none
    | some v =>
      lutGo rest (alInsert p.length (wrap32 (v + 1)) codes)
        (alInsert p.symbol (codeBits p.length v) tbl)

/-- `HuffmanLUT::build_lookup_table`. -/
def buildLookupTable (pairs : List SymbolLengthPair) (codes : List (Int × Int)) :
    Option (List (Nat × List Bool)) :=
  (lutGo pairs codes []).map (·.1)

/-- `HuffmanLUT { symbol_length_pairs, lookup_table }`. -/
structure HuffmanLUT where
  symbol_length_pairs : List SymbolLengthPair
  lookup_table : List (Nat × List Bool)
deriving DecidableEq, Repr

/-- `HuffmanLUT::build_huffman_lut`: counts, then base codes, then the
lookup table. -/
def buildHuffmanLut (pairs : List SymbolLengthPair) : Option HuffmanLUT :=
  match buildLengthsCodes (buildLengthsCounts pairs) with
  | none => none
  | some codes =>
    match lutGo pairs codes [] with
    | none => none
    | some (tbl, _) => some ⟨pairs, tbl⟩

/-- `c1` is a leading segment of `c2` (the "is a prefix of" relation on
codes). -/
def leadOf (c1 c2 : List Bool) : Bool := c2.take c1.length == c1

/-- Adjacent-pair check along a list (kernel-computable `Chain'`). -/
def chainB {α : Type} (r : α → α → Bool) : List α → Bool
  | [] => true
  | [_] => true
  | a :: b :: t => r a b && chainB r (b :: t)

/-- One step of the canonical supply order: length strictly increases, or
stays equal with non-decreasing symbol. -/
def canonicalStepB (p q : SymbolLengthPair) : Bool :=
  decide (p.length < q.length) || (decide (p.length = q.length) && decide (p.symbol ≤ q.symbol))

/-- The canonical supply order required by the spec: records sorted by
ascending length, and by ascending symbol within equal length. -/
def canonicalOrder (pairs : List SymbolLengthPair) : Prop :=
  chainB canonicalStepB pairs = true

/-- The largest record length, clamped to `Nat`. -/
def maxLen (pairs : List SymbolLengthPair) : Nat :=
  pairs.foldr (fun p m => max p.length.toNat m) 0

/-- `Σ 2^(L - length)` over the records with positive length: the Kraft sum
scaled by `2^L`. -/
def kraftSum (pairs : List SymbolLengthPair) (L : Nat) : Nat :=
  ((pairs.filter (fun p => 0 < p.length)).map (fun p => 2 ^ (L - p.length.toNat))).sum

/-- The positive lengths satisfy the Kraft equality `Σ 2^(-length) = 1`. -/
def kraftEq (pairs : List SymbolLengthPair) : Prop :=
  kraftSum pairs (maxLen pairs) = 2 ^ maxLen pairs

/-- The positive lengths present form a gap-free consecutive range: the keys
of the length-count map after the sentinel `0` are consecutive integers. -/
def keysContiguous (pairs : List SymbolLengthPair) : Prop :=
  chainB (fun a b : Int => b == a + 1) (((buildLengthsCounts pairs).map (·.1)).tail) = true

instance (pairs : List SymbolLengthPair) : Decidable (kraftEq pairs) :=
  inferInstanceAs (Decidable (kraftSum pairs (maxLen pairs) = 2 ^ maxLen pairs))

instance (pairs : List SymbolLengthPair) : Decidable (canonicalOrder pairs) :=
  inferInstanceAs (Decidable (chainB canonicalStepB pairs = true))

instance (pairs : List SymbolLengthPair) : Decidable (keysContiguous pairs) :=
  inferInstanceAs (Decidable (chainB (fun a b : Int => b == a + 1)
    (((buildLengthsCounts pairs).map (·.1)).tail) = true))

/-- The RFC&nbsp;1951 worked example, in the symbol order of the source's test
(`A..=E` length 3, `F` length 2, `G`, `H` length 4). -/
def rfcPairs : List SymbolLengthPair :=
  [⟨65, 3⟩, ⟨66, 3⟩, ⟨67, 3⟩, ⟨68, 3⟩, ⟨69, 3⟩, ⟨70, 2⟩, ⟨71, 4⟩, ⟨72, 4⟩]

example : buildLengthsCounts rfcPairs = [(0, 0), (2, 1), (3, 5), (4, 2)] := by decide

example : buildLengthsCodes (buildLengthsCounts rfcPairs) =
    some [(0, 0), (2, 0), (3, 2), (4, 14)] := by decide

example : (buildHuffmanLut rfcPairs).map (·.lookup_table) =
    some [(65, [false, true, false]), (66, [false, true, true]),
          (67, [true, false, false]), (68, [true, false, true]),
          (69, [true, true, false]), (70, [false, false]),
          (71, [true, true, true, false]), (72, [true, true, true, true])] := by decide

example : (buildHuffmanLut [⟨65, 1⟩, ⟨66, 3⟩, ⟨67, 3⟩, ⟨68, 3⟩, ⟨69, 3⟩]).map
    (fun lut => (alGet 65 lut.lookup_table, alGet 66 lut.lookup_table)) =
    some (some [false], some [false, true, false]) := by decide

example : kraftEq [⟨65, 1⟩, ⟨66, 3⟩, ⟨67, 3⟩, ⟨68, 3⟩, ⟨69, 3⟩] := by decide

example : canonicalOrder [⟨65, 1⟩, ⟨66, 3⟩, ⟨67, 3⟩, ⟨68, 3⟩, ⟨69, 3⟩] := by decide

example : (buildHuffmanLut [⟨65, 0⟩]).map (·.lookup_table) = some [(65, [])] := by decide

example : buildLengthsCounts [⟨65, 0⟩] = [(0, 0)] := by decide

/-- Whether a parse outcome is one of the cursor-exhaustion failures (the
spec's `TruncatedHeader`). -/
def isTruncatedErr (e : Except GzipError GzipMember) : Bool :=
  match e with
  | .error (.truncated _) => true
  | _ => false

/-- The `n`-bit most-significant-bit-first rendering of `v : Nat`
(`codeBits` on non-negative values). -/
def natCode (n v : Nat) : List Bool :=
  (List.range n).map (fun k => v / 2 ^ (n - 1 - k) % 2 == 1)

/-- The scaled weight `2^(L - length)` a record contributes to the Kraft
sum. -/
def lenWeight (L : Nat) (p : SymbolLengthPair) : Nat := 2 ^ (L - p.length.toNat)

/-- The scaled Kraft mass of the records with length below `l`: the start
of length `l`'s block of code intervals. -/
def sumBelow (pairs : List SymbolLengthPair) (L : Nat) (l : Int) : Nat :=
  ((pairs.filter (fun p => p.length < l)).map (lenWeight L)).sum

/-- How many records of a list have length `l`. -/
def cntIn (li : List SymbolLengthPair) (l : Int) : Nat :=
  (li.filter (fun p => p.length = l)).length

/-- The canonical-order step as a relation (`canonicalStepB` in `Prop`). -/
def canonicalLe (p q : SymbolLengthPair) : Prop :=
  p.length < q.length ∨ (p.length = q.length ∧ p.symbol ≤ q.symbol)

instance : IsTrans SymbolLengthPair canonicalLe :=
  ⟨by
    intro a b c hab hbc
    rcases hab with h1 | ⟨h1, h1s⟩ <;> rcases hbc with h2 | ⟨h2, h2s⟩
    · exact Or.inl (h1.trans h2)
    · exact Or.inl (h2 ▸ h1)
    · exact Or.inl (h1 ▸ h2)
    · exact Or.inr ⟨h1.trans h2, h1s.trans h2s⟩⟩

theorem decode_path (path : List Bool) (t : HuffmanNode) (s : SymbolType) (w : Int)
    (h : subtreeAt t path = some (.lnode s w)) : t.decode path = some (s, []) := by
  induction path generalizing t with
  | nil =>
    cases t with
    | inode l r w2 => simp [subtreeAt] at h
    | lnode s2 w2 =>
      simp [subtreeAt] at h
      obtain ⟨rfl, rfl⟩ := h
      rfl
  | cons b bs ih =>
    cases t with
    | lnode s2 w2 => simp [subtreeAt] at h
    | inode l r w2 =>
      simp only [subtreeAt] at h
      simpa only [HuffmanNode.decode] using ih _ h

/-- C3: `decode` removes one front bit per internal node (0 = left,
1 = right); on reaching a leaf it returns the leaf's symbol and the
remaining bits, so the consumed bits are exactly the leaf's root-to-leaf
path (the leaf's depth many bits); it fails (the
`expect("Not enough bits to decode")` panic, the spec's `TruncatedInput`)
exactly when the bits run out while still at an internal node. -/
theorem claim_C3 (t : HuffmanNode) (bits : List Bool) :
    (∀ s rest, t.decode bits = some (s, rest) →
      ∃ path w, bits = path ++ rest ∧ subtreeAt t path = some (.lnode s w)) ∧
    (t.decode bits = none ↔ ∃ a b w, subtreeAt t bits = some (.inode a b w)) := by
  induction t generalizing bits with
  | lnode s w =>
    constructor
    · intro s1 rest h
      simp only [HuffmanNode.decode, Option.some.injEq, Prod.mk.injEq] at h
      obtain ⟨rfl, rfl⟩ := h
      exact ⟨[], w, rfl, rfl⟩
    · simp only [HuffmanNode.decode]
      constructor
      · intro h; exact absurd h (by simp)
      · rintro ⟨a, b, w2, hab⟩
        cases bits with
        | nil => simp [subtreeAt] at hab
        | cons x xs => simp [subtreeAt] at hab
  | inode l r w ihl ihr =>
    cases bits with
    | nil =>
      constructor
      · intro s rest h; simp [HuffmanNode.decode] at h
      · constructor
        · intro _; exact ⟨l, r, w, rfl⟩
        · intro _; rfl
    | cons b bs =>
      cases b with
      | false =>
        constructor
        · intro s rest h
          simp only [HuffmanNode.decode, Bool.false_eq_true, if_false] at h
          obtain ⟨path, w2, heq, hsub⟩ := (ihl bs).1 s rest h
          exact ⟨false :: path, w2, by simp [heq], by simpa [subtreeAt] using hsub⟩
        · simp only [HuffmanNode.decode, Bool.false_eq_true, if_false, subtreeAt]
          exact (ihl bs).2
      | true =>
        constructor
        · intro s rest h
          simp only [HuffmanNode.decode, if_true] at h
          obtain ⟨path, w2, heq, hsub⟩ := (ihr bs).1 s rest h
          exact ⟨true :: path, w2, by simp [heq], by simpa [subtreeAt] using hsub⟩
        · simp only [HuffmanNode.decode, if_true, subtreeAt]
          exact (ihr bs).2

theorem claim_C3_witness :
    ∃ path w, [false] = path ++ ([] : List Bool) ∧
      subtreeAt (.inode (.lnode 10 1) (.lnode 20 1) 2) path = some (.lnode 10 w) :=
  (claim_C3 (.inode (.lnode 10 1) (.lnode 20 1) 2) [false]).1 10 [] rfl

/-- C4: for a tree built by `build_huffman_tree` from at least two weighted
symbols, feeding `decode` exactly a leaf's root-to-leaf path (0 = left edge,
1 = right edge) returns that leaf's symbol with an empty remainder. -/
theorem claim_C4 (pairs : List SymbolWeightPair) (ht : HuffmanTree)
    (_hn : 2 ≤ pairs.length) (_hb : buildHuffmanTree pairs = .ok ht)
    (path : List Bool) (s : SymbolType) (w : Int)
    (hleaf : subtreeAt ht.tree path = some (.lnode s w)) :
    ht.tree.decode path = some (s, []) :=
  decode_path path ht.tree s w hleaf

theorem claim_C4_witness :
    (HuffmanTree.tree ⟨[⟨65, 10⟩, ⟨66, 20⟩, ⟨67, 5⟩],
        .inode (.inode (.lnode 67 5) (.lnode 65 10) 15) (.lnode 66 20) 35⟩).decode
      [false, true] = some (65, []) :=
  claim_C4 [⟨65, 10⟩, ⟨66, 20⟩, ⟨67, 5⟩]
    ⟨[⟨65, 10⟩, ⟨66, 20⟩, ⟨67, 5⟩],
      .inode (.inode (.lnode 67 5) (.lnode 65 10) 15) (.lnode 66 20) 35⟩
    (by decide) (by decide) [false, true] 65 10 (by decide)

/-- C1: on the RFC 1951 worked example (records `A:3 … H:4` in that order)
the pipeline produces the length-count map `{0:0, 2:1, 3:5, 4:2}`, the
length-base-code map `{0:0, 2:0, 3:2, 4:14}`, and the lookup table
`A=010, B=011, C=100, D=101, E=110, F=00, G=1110, H=1111`. -/
theorem claim_C1 :
    buildLengthsCounts rfcPairs = [(0, 0), (2, 1), (3, 5), (4, 2)] ∧
    buildLengthsCodes (buildLengthsCounts rfcPairs) =
      some [(0, 0), (2, 0), (3, 2), (4, 14)] ∧
    (buildHuffmanLut rfcPairs).map (·.lookup_table) =
      some [(65, [false, true, false]), (66, [false, true, true]),
            (67, [true, false, false]), (68, [true, false, true]),
            (69, [true, true, false]), (70, [false, false]),
            (71, [true, true, true, false]), (72, [true, true, true, true])] := by
  refine ⟨by decide, by decide, by decide⟩

theorem readFilenameBytes_noZero (fn : List Nat) (hz : ∀ b ∈ fn, b ≠ 0) :
    readFilenameBytes fn = (fn, []) := by
  induction fn with
  | nil => rfl
  | cons b rest ih =>
    have hb : b ≠ 0 := hz b (by simp)
    have hrest := ih (fun x hx => hz x (by simp [hx]))
    simp [readFilenameBytes, hb, hrest]

/-- C7: header validation fails fast in field order.  An input whose first
two bytes are not `1F 8B` fails, and the outcome only depends on those two
bytes (no later field is read); an input `1F 8B cm …` with `cm ≠ 8` fails
with `UnsupportedCompressionMethod` no matter what follows (the flags byte
is never read). -/
theorem claim_C7 :
    (∀ bs : List Nat, bs.take 2 ≠ [0x1f, 0x8b] →
      (∃ e, parseMember bs = .error e) ∧ parseMember bs = parseMember (bs.take 2)) ∧
    (∀ cm rest, cm ≠ 8 →
      parseMember (0x1f :: 0x8b :: cm :: rest) = .error .unsupportedCompressionMethod) := by
  constructor
  · intro bs hbs
    match bs with
    | [] => exact ⟨⟨.truncated .id1, rfl⟩, rfl⟩
    | [b] =>
      by_cases hb : b = 0x1f
      · subst hb; exact ⟨⟨.truncated .id2, rfl⟩, rfl⟩
      · refine ⟨⟨.invalidID1, ?_⟩, ?_⟩ <;> simp [parseMember, hb]
    | b1 :: b2 :: rest =>
      by_cases h1 : b1 = 0x1f
      · subst h1
        have h2 : b2 ≠ 0x8b := by
          intro h; exact hbs (by simp [h])
        refine ⟨⟨.invalidID2, ?_⟩, ?_⟩ <;> simp [parseMember, h2]
      · refine ⟨⟨.invalidID1, ?_⟩, ?_⟩ <;> simp [parseMember, h1]
  · intro cm rest hcm
    simp [parseMember, hcm]

theorem claim_C7_witness :
    ((∃ e, parseMember [0] = .error e) ∧ parseMember [0] = parseMember ([0].take 2)) ∧
    parseMember [0x1f, 0x8b, 7] = .error .unsupportedCompressionMethod :=
  ⟨claim_C7.1 [0] (by decide), claim_C7.2 7 [] (by decide)⟩

/-- C8 counterexample: the block-header byte `0b00000110` has BTYPE bits 11,
yet parsing fails with `MultiBlockUnsupported` (the BFINAL = 0 check fires
first), not with `ReservedBlockType` as the claim states. -/
theorem claim_C8_cex :
    ((6 >>> 1) % 2 = 1 ∧ (6 >>> 2) % 2 = 1) ∧
    parseBlockHeader 6 = .error .multiBlockUnsupported ∧
    parseBlockHeader 6 ≠ .error .reservedBlockType := by decide

/-- C8 (amended): BFINAL = 0 fails with `MultiBlockUnsupported`; BTYPE = 11
fails with `ReservedBlockType` *provided BFINAL = 1* (BFINAL is checked
first); the byte `0b00000011` is accepted as
`{final: true, blockType: FixedHuffman}`, also through a full member parse
after a valid header. -/
theorem claim_C8 :
    (∀ b : Nat, b % 2 = 0 → parseBlockHeader b = .error .multiBlockUnsupported) ∧
    (∀ b : Nat, b % 2 = 1 → (b >>> 1) % 2 = 1 → (b >>> 2) % 2 = 1 →
      parseBlockHeader b = .error .reservedBlockType) ∧
    parseBlockHeader 3 = .ok ⟨true, .fixedHuffman⟩ ∧
    (∀ b : Nat, parseMember ([0x1f, 0x8b, 8, 8, 0, 0, 0, 0, 0, 3, 0] ++ [b]) =
      (parseBlockHeader b).map (fun bh => ⟨[], bh⟩)) := by
  refine ⟨?_, ?_, by decide, fun b => rfl⟩
  · intro b hb
    have h1 : ¬ (b % 2 = 1) := by omega
    simp [parseBlockHeader, h1]
  · intro b h1 h2 h3
    simp [parseBlockHeader, h1, h2, h3]

theorem claim_C8_witness :
    parseBlockHeader 4 = .error .multiBlockUnsupported ∧
    parseBlockHeader 7 = .error .reservedBlockType ∧
    parseMember ([0x1f, 0x8b, 8, 8, 0, 0, 0, 0, 0, 3, 0] ++ [3]) =
      (parseBlockHeader 3).map (fun bh => ⟨[], bh⟩) :=
  ⟨claim_C8.1 4 (by decide), claim_C8.2.1 7 (by decide) (by decide) (by decide),
    claim_C8.2.2.2 3⟩

/-- C9 counterexample: the cursor is exhausted in the filename field before
any zero terminator, but because the consumed byte `0xFF` is not valid
UTF-8 the parse fails with `InvalidFilenameEncoding`, not with a truncation
error. -/
theorem claim_C9_cex :
    parseMember [0x1f, 0x8b, 8, 8, 0, 0, 0, 0, 0, 3, 0xff] =
      .error .invalidFilenameEncoding ∧
    isTruncatedErr (parseMember [0x1f, 0x8b, 8, 8, 0, 0, 0, 0, 0, 3, 0xff]) = false := by
  decide

/-- C9 (amended): when the cursor is exhausted while reading the filename
before a zero terminator, the parse fails — with `TruncatedHeader` (raised
at the following block-header read) when the consumed filename bytes are
valid UTF-8, and with `InvalidFilenameEncoding` otherwise. -/
theorem claim_C9 (m0 m1 m2 m3 xfl : Nat) (fn : List Nat) (hz : ∀ b ∈ fn, b ≠ 0) :
    parseMember ([0x1f, 0x8b, 8, 8, m0, m1, m2, m3, xfl, 3] ++ fn) =
      if validUtf8 fn then .error (.truncated .blockHeader)
      else .error .invalidFilenameEncoding := by
  have hread := readFilenameBytes_noZero fn hz
  simp only [List.cons_append, List.nil_append, parseMember]
  norm_num
  rw [hread]
  cases h : validUtf8 fn <;> simp [h]

theorem claim_C9_witness :
    parseMember [0x1f, 0x8b, 8, 8, 0, 0, 0, 0, 0, 3, 0xff] =
      .error .invalidFilenameEncoding := by
  have h := claim_C9 0 0 0 0 0 [0xff] (by decide)
  simpa using h

theorem siftUpGo_length (le : HuffmanNode → HuffmanNode → Bool) :
    ∀ gas data elt pos, (siftUpGo le gas data elt pos).length = data.length := by
  intro gas
  induction gas with
  | zero => intro data elt pos; simp [siftUpGo]
  | succ g ih =>
    intro data elt pos
    simp only [siftUpGo]
    split
    · split
      · simp
      · rw [ih]; simp
    · simp

theorem siftDownGo_length (le : HuffmanNode → HuffmanNode → Bool) :
    ∀ gas data elt pos endd, (siftDownGo le gas data elt pos endd).length = data.length := by
  intro gas
  induction gas with
  | zero => intro data elt pos endd; simp [siftDownGo]
  | succ g ih =>
    intro data elt pos endd
    simp only [siftDownGo]
    split
    · split
      · split
        · simp
        · rw [ih]; simp
      · split
        · simp
        · rw [ih]; simp
    · simp

theorem siftDownToBottomGo_length (le : HuffmanNode → HuffmanNode → Bool) :
    ∀ gas data elt pos endd,
      (siftDownToBottomGo le gas data elt pos endd).length = data.length := by
  intro gas
  induction gas with
  | zero => intro data elt pos endd; simp [siftDownToBottomGo, siftUpGo_length]
  | succ g ih =>
    intro data elt pos endd
    simp only [siftDownToBottomGo]
    split
    · split
      · rw [ih]; simp
      · rw [ih]; simp
    · rw [siftUpGo_length]

theorem heapPush_length (le : HuffmanNode → HuffmanNode → Bool)
    (data : List HuffmanNode) (item : HuffmanNode) :
    (heapPush le data item).length = data.length + 1 := by
  simp [heapPush, siftUpGo_length]

theorem heapPop_some (le : HuffmanNode → HuffmanNode → Bool)
    (data : List HuffmanNode) (h : 0 < data.length) :
    ∃ x d, heapPop le data = some (x, d) ∧ d.length + 1 = data.length := by
  have hne : data ≠ [] := by
    intro hd; subst hd; simp at h
  obtain ⟨last, hlast⟩ := Option.isSome_iff_exists.mp (List.getLast?_isSome.mpr hne)
  simp only [heapPop, hlast]
  by_cases hrest : data.dropLast.isEmpty
  · rw [if_pos hrest]
    refine ⟨last, data.dropLast, rfl, ?_⟩
    have hnil : data.dropLast = [] := by simpa using hrest
    have hlen := List.length_dropLast data
    rw [hnil] at hlen
    simp only [List.length_nil] at hlen
    rw [hnil]
    simp only [List.length_nil]
    omega
  · rw [if_neg hrest]
    refine ⟨_, _, rfl, ?_⟩
    rw [siftDownToBottomGo_length, List.length_set, List.length_dropLast]
    omega

theorem rebuildGo_length (le : HuffmanNode → HuffmanNode → Bool) :
    ∀ n data, (rebuildGo le data n).length = data.length := by
  intro n
  induction n with
  | zero => intro data; rfl
  | succ k ih => intro data; rw [rebuildGo, ih, siftDownGo_length]

theorem heapify_length (le : HuffmanNode → HuffmanNode → Bool)
    (xs : List HuffmanNode) : (heapify le xs).length = xs.length :=
  rebuildGo_length le _ xs

theorem mergeLoop_length (le : HuffmanNode → HuffmanNode → Bool) :
    ∀ gas data, 1 ≤ data.length → data.length ≤ gas + 1 →
      (mergeLoop le gas data).length = 1 := by
  intro gas
  induction gas with
  | zero =>
    intro data h1 h2
    have : data.length = 1 := by omega
    simpa [mergeLoop] using this
  | succ g ih =>
    intro data h1 h2
    by_cases hlen : 1 < data.length
    · obtain ⟨a, d1, hpop1, hlen1⟩ := heapPop_some le data (by omega)
      obtain ⟨b, d2, hpop2, hlen2⟩ := heapPop_some le d1 (by omega)
      rw [mergeLoop, if_pos hlen, hpop1]
      dsimp only
      rw [hpop2]
      dsimp only
      apply ih
      · rw [heapPush_length]; omega
      · rw [heapPush_length]; omega
    · have : data.length = 1 := by omega
      rw [mergeLoop, if_neg hlen]
      exact this

theorem buildWeighted_spec (le : HuffmanNode → HuffmanNode → Bool)
    (pairs : List SymbolWeightPair) :
    (buildWeighted le pairs = .error .insufficientSymbols ↔ pairs.length < 2) ∧
    (2 ≤ pairs.length → ∃ ht, buildWeighted le pairs = .ok ht) := by
  have hflen : (heapify le (pairs.map (fun p => .lnode p.symbol p.weight))).length
      = pairs.length := by
    rw [heapify_length, List.length_map]
  by_cases h2 : pairs.length < 2
  · constructor
    · refine ⟨fun _ => h2, fun _ => ?_⟩
      rw [buildWeighted, if_pos (by rw [hflen]; exact h2)]
    · intro hge; omega
  · have hmerge := mergeLoop_length le
      (heapify le (pairs.map (fun p => .lnode p.symbol p.weight))).length
      (heapify le (pairs.map (fun p => .lnode p.symbol p.weight)))
      (by omega) (by omega)
    obtain ⟨t, d, hpop, _⟩ := heapPop_some le _ (by rw [hmerge]; exact Nat.one_pos)
    constructor
    · refine ⟨fun herr => ?_, fun hlt => absurd hlt h2⟩
      rw [buildWeighted, if_neg (by rw [hflen]; exact h2), hpop] at herr
      exact absurd herr (by simp)
    · intro _
      refine ⟨⟨pairs, t⟩, ?_⟩
      rw [buildWeighted, if_neg (by rw [hflen]; exact h2), hpop]

/-- C5 (amended): `build_huffman_tree` fails with `InsufficientSymbols`
exactly when fewer than two *records* are supplied (records are counted
with multiplicity — distinctness of the weighted symbols plays no role),
and returns a tree whenever at least two records are supplied. -/
theorem claim_C5 (pairs : List SymbolWeightPair) :
    (buildHuffmanTree pairs = .error .insufficientSymbols ↔ pairs.length < 2) ∧
    (2 ≤ pairs.length → ∃ ht, buildHuffmanTree pairs = .ok ht) :=
  buildWeighted_spec leMin pairs

/-- C5 counterexample: two identical records — a single distinct weighted
symbol — still build a tree, so "fails when fewer than 2 distinct weighted
symbols are supplied" is false. -/
theorem claim_C5_cex :
    (([⟨65, 1⟩, ⟨65, 1⟩] : List SymbolWeightPair).map (·.symbol)).dedup.length = 1 ∧
    buildHuffmanTree [⟨65, 1⟩, ⟨65, 1⟩] =
      .ok ⟨[⟨65, 1⟩, ⟨65, 1⟩], .inode (.lnode 65 1) (.lnode 65 1) 2⟩ := by decide

theorem claim_C5_witness :
    buildHuffmanTree ([] : List SymbolWeightPair) = .error .insufficientSymbols ∧
    ∃ ht, buildHuffmanTree [⟨65, 1⟩, ⟨66, 2⟩] = .ok ht :=
  ⟨(claim_C5 []).1.mpr (by decide), (claim_C5 [⟨65, 1⟩, ⟨66, 2⟩]).2 (by decide)⟩

theorem buildWeighted_ok_iff (le : HuffmanNode → HuffmanNode → Bool)
    (pairs : List SymbolWeightPair) :
    (∃ ht, buildWeighted le pairs = .ok ht) ↔ 2 ≤ pairs.length := by
  constructor
  · rintro ⟨ht, hok⟩
    by_contra hlt
    rw [(buildWeighted_spec le pairs).1.mpr (by omega)] at hok
    exact absurd hok (by simp)
  · exact (buildWeighted_spec le pairs).2

/-- C10 counterexample: on `[(s0, w1), (s1, w2)]` with `w1 < w2` the
`lib.rs` builder (max-heap) and the `huffman_tree.rs` builder (min-heap)
return mirrored — hence different — trees. -/
theorem claim_C10_cex :
    buildHuffmanTreeLib [⟨0, 1⟩, ⟨1, 2⟩] =
      .ok ⟨[⟨0, 1⟩, ⟨1, 2⟩], .inode (.lnode 1 2) (.lnode 0 1) 3⟩ ∧
    buildHuffmanTree [⟨0, 1⟩, ⟨1, 2⟩] =
      .ok ⟨[⟨0, 1⟩, ⟨1, 2⟩], .inode (.lnode 0 1) (.lnode 1 2) 3⟩ ∧
    (HuffmanNode.inode (.lnode 1 2) (.lnode 0 1) 3) ≠ .inode (.lnode 0 1) (.lnode 1 2) 3 := by
  decide

/-- C10 (amended): the two weight-driven builders are *not* tree-for-tree
equivalent (lib.rs merges via a max-heap, huffman_tree.rs via a min-heap);
what does hold is that they succeed on exactly the same inputs — both fail
with `InsufficientSymbols` exactly when fewer than two records are supplied
and both return a tree otherwise. -/
theorem claim_C10 (pairs : List SymbolWeightPair) :
    ((∃ ht, buildHuffmanTreeLib pairs = .ok ht) ↔
      (∃ ht, buildHuffmanTree pairs = .ok ht)) ∧
    (buildHuffmanTreeLib pairs = .error .insufficientSymbols ↔ pairs.length < 2) ∧
    (buildHuffmanTree pairs = .error .insufficientSymbols ↔ pairs.length < 2) :=
  ⟨(buildWeighted_ok_iff leMax pairs).trans (buildWeighted_ok_iff leMin pairs).symm,
    (buildWeighted_spec leMax pairs).1, (buildWeighted_spec leMin pairs).1⟩

theorem claim_C10_witness :
    buildHuffmanTreeLib [⟨0, 1⟩] = .error .insufficientSymbols ∧
    buildHuffmanTree [⟨0, 1⟩] = .error .insufficientSymbols :=
  ⟨(claim_C10 [⟨0, 1⟩]).2.1.mpr (by decide), (claim_C10 [⟨0, 1⟩]).2.2.mpr (by decide)⟩

theorem alGet_alInsert_self {κ β : Type} [LinearOrder κ] (k : κ) (v : β)
    (m : List (κ × β)) : alGet k (alInsert k v m) = some v := by
  induction m with
  | nil => simp [alInsert, alGet]
  | cons hd t ih =>
    obtain ⟨k1, v1⟩ := hd
    by_cases h1 : k < k1
    · simp [alInsert, h1, alGet]
    · by_cases h2 : k = k1
      · simp [alInsert, h1, h2, alGet]
      · simp [alInsert, h1, h2, alGet, ih]

theorem alGet_alInsert_ne {κ β : Type} [LinearOrder κ] {k k' : κ} (h : k' ≠ k)
    (v : β) (m : List (κ × β)) : alGet k' (alInsert k v m) = alGet k' m := by
  induction m with
  | nil => simp [alInsert, alGet, h]
  | cons hd t ih =>
    obtain ⟨k1, v1⟩ := hd
    by_cases h1 : k < k1
    · simp [alInsert, h1, alGet, h]
    · by_cases h2 : k = k1
      · subst h2
        simp [alInsert, h1, alGet, h]
      · by_cases h3 : k' = k1
        · simp [alInsert, h1, h2, alGet, h3]
        · simp [alInsert, h1, h2, alGet, h3, ih]

theorem lutGo_get_untouched (s : SymbolType) :
    ∀ (ps : List SymbolLengthPair) (codes : List (Int × Int))
      (tbl tblF : List (Nat × List Bool)) (cF : List (Int × Int)),
      s ∉ ps.map (·.symbol) → lutGo ps codes tbl = some (tblF, cF) →
      alGet s tblF = alGet s tbl := by
  intro ps
  induction ps with
  | nil =>
    intro codes tbl tblF cF _ hrun
    simp only [lutGo, Option.some.injEq, Prod.mk.injEq] at hrun
    rw [hrun.1]
  | cons p rest ih =>
    intro codes tbl tblF cF hnot hrun
    simp only [lutGo] at hrun
    cases hv : alGet p.length codes with
    | none => rw [hv] at hrun; exact absurd hrun (by simp)
    | some v =>
      rw [hv] at hrun
      have hs : s ≠ p.symbol := by
        intro h; exact hnot (by simp [h])
      have hrest : s ∉ rest.map (·.symbol) := by
        intro h; exact hnot (by simp [h])
      rw [ih _ _ _ _ hrest hrun, alGet_alInsert_ne hs]

theorem lutGo_get_zero (s : SymbolType) :
    ∀ (ps : List SymbolLengthPair) (codes : List (Int × Int))
      (tbl tblF : List (Nat × List Bool)) (cF : List (Int × Int)),
      (∃ p ∈ ps, p.symbol = s) → (∀ p ∈ ps, p.symbol = s → p.length = 0) →
      lutGo ps codes tbl = some (tblF, cF) →
      alGet s tblF = some [] := by
  intro ps
  induction ps with
  | nil =>
    intro codes tbl tblF cF hmem _ _
    simp at hmem
  | cons p rest ih =>
    intro codes tbl tblF cF hmem hall hrun
    simp only [lutGo] at hrun
    cases hv : alGet p.length codes with
    | none => rw [hv] at hrun; exact absurd hrun (by simp)
    | some v =>
      rw [hv] at hrun
      by_cases hrest : ∃ q ∈ rest, q.symbol = s
      · exact ih _ _ _ _ hrest (fun q hq hqs => hall q (by simp [hq]) hqs) hrun
      · have hps : p.symbol = s := by
          obtain ⟨q, hq, hqs⟩ := hmem
          rcases List.mem_cons.mp hq with h | h
          · rw [← h]; exact hqs
          · exact absurd ⟨q, h, hqs⟩ hrest
        have hlen : p.length = 0 := hall p (by simp) hps
        have hbits : codeBits p.length v = [] := by
          rw [hlen]; rfl
        have hnot : s ∉ rest.map (·.symbol) := by
          intro h
          obtain ⟨q, hq, hqs⟩ := List.mem_map.mp h
          exact hrest ⟨q, hq, hqs⟩
        rw [lutGo_get_untouched s _ _ _ _ _ hnot hrun, hbits, hps, alGet_alInsert_self]

/-- C6 counterexample: after `build_lengths_counts` on a single length-0
record the count under key 0 is 0, not 1 (the trailing `insert(0, 0)`
overwrites the tally), and the symbol *is* present in the built lookup
table, bound to the empty bit sequence. -/
theorem claim_C6_cex :
    buildLengthsCounts [⟨65, 0⟩] = [(0, 0)] ∧
    (buildHuffmanLut [⟨65, 0⟩]).map (fun lut => alGet 65 lut.lookup_table) =
      some (some []) := by decide

/-- C6 (amended): the final length-count map always binds key 0 to 0 (a
length-0 record's tally is erased by the closing `insert(0, 0)`), and a
symbol all of whose records have length 0 *is* present in the lookup table,
bound to the empty bit sequence (the rendering loop `while i >= 0` never
runs), rather than being absent. -/
theorem claim_C6 (pairs : List SymbolLengthPair) (s : SymbolType) (lut : HuffmanLUT)
    (hb : buildHuffmanLut pairs = some lut)
    (hmem : ∃ p ∈ pairs, p.symbol = s)
    (hall : ∀ p ∈ pairs, p.symbol = s → p.length = 0) :
    alGet 0 (buildLengthsCounts pairs) = some 0 ∧
    alGet s lut.lookup_table = some [] := by
  refine ⟨alGet_alInsert_self 0 0 _, ?_⟩
  simp only [buildHuffmanLut] at hb
  cases hc : buildLengthsCodes (buildLengthsCounts pairs) with
  | none => rw [hc] at hb; exact absurd hb (by simp)
  | some codes =>
    rw [hc] at hb
    dsimp only at hb
    cases hrun : lutGo pairs codes [] with
    | none => rw [hrun] at hb; exact absurd hb (by simp)
    | some out =>
      rw [hrun] at hb
      obtain ⟨tbl, cF⟩ := out
      dsimp only at hb
      simp only [Option.some.injEq] at hb
      have := lutGo_get_zero s pairs codes [] tbl cF hmem hall hrun
      rw [← hb]
      exact this

theorem claim_C6_witness :
    alGet 0 (buildLengthsCounts [⟨65, 0⟩]) = some 0 ∧
    alGet 65 (HuffmanLUT.lookup_table ⟨[⟨65, 0⟩], [(65, [])]⟩) = some [] :=
  claim_C6 [⟨65, 0⟩] 65 ⟨[⟨65, 0⟩], [(65, [])]⟩ (by decide) (by decide) (by decide)

theorem chainB_iff {α : Type} (r : α → α → Bool) :
    ∀ l : List α, chainB r l = true ↔ List.Chain' (fun a b => r a b = true) l := by
  intro l
  match l with
  | [] => simp [chainB]
  | [a] => simp [chainB]
  | a :: b :: t =>
    rw [chainB, Bool.and_eq_true, chainB_iff r (b :: t), List.chain'_cons]

theorem canonicalOrder_chain' (pairs : List SymbolLengthPair)
    (h : canonicalOrder pairs) : List.Chain' canonicalLe pairs := by
  rw [canonicalOrder, chainB_iff] at h
  refine h.imp ?_
  intro a b hab
  rw [canonicalStepB, Bool.or_eq_true, Bool.and_eq_true] at hab
  rcases hab with h1 | ⟨h1, h2⟩
  · exact Or.inl (of_decide_eq_true h1)
  · exact Or.inr ⟨of_decide_eq_true h1, of_decide_eq_true h2⟩

theorem natCode_length (n v : Nat) : (natCode n v).length = n := by
  simp [natCode]

theorem natCode_succ (n v : Nat) :
    natCode (n + 1) v = natCode n (v / 2) ++ [v % 2 == 1] := by
  rw [natCode, List.range_succ, List.map_append]
  congr 1
  · rw [natCode]
    apply List.map_congr_left
    intro k hk
    have hk' : k < n := List.mem_range.mp hk
    have he : n + 1 - 1 - k = (n - 1 - k) + 1 := by omega
    rw [he, pow_succ, Nat.div_div_eq_div_mul, Nat.mul_comm 2 (2 ^ (n - 1 - k))]
  · simp

theorem natCode_take (d : Nat) :
    ∀ n v, (natCode (n + d) v).take n = natCode n (v / 2 ^ d) := by
  induction d with
  | zero =>
    intro n v
    simp only [Nat.add_zero, pow_zero, Nat.div_one]
    have hl : (natCode n v).length = n := natCode_length n v
    have ht := List.take_length (natCode n v)
    rw [hl] at ht
    exact ht
  | succ k ih =>
    intro n v
    have he : n + (k + 1) = (n + k) + 1 := by omega
    rw [he, natCode_succ, List.take_append_of_le_length (by rw [natCode_length]; omega),
      ih n (v / 2), Nat.div_div_eq_div_mul]
    congr 2
    rw [pow_succ, Nat.mul_comm]

theorem natCode_inj : ∀ (n v1 v2 : Nat), v1 < 2 ^ n → v2 < 2 ^ n →
    natCode n v1 = natCode n v2 → v1 = v2 := by
  intro n
  induction n with
  | zero =>
    intro v1 v2 h1 h2 _
    simp only [pow_zero, Nat.lt_one_iff] at h1 h2
    omega
  | succ k ih =>
    intro v1 v2 h1 h2 heq
    rw [natCode_succ, natCode_succ] at heq
    have hlen : (natCode k (v1 / 2)).length = (natCode k (v2 / 2)).length := by
      rw [natCode_length, natCode_length]
    obtain ⟨heq1, heq2⟩ := List.append_inj heq hlen
    have hd : v1 / 2 = v2 / 2 := by
      apply ih <;> first
        | (apply Nat.div_lt_of_lt_mul; rw [← pow_succ']; assumption)
        | exact heq1
    have hm : v1 % 2 = v2 % 2 := by
      have := List.head_eq_of_cons_eq heq2
      rcases Nat.mod_two_eq_zero_or_one v1 with hv1 | hv1 <;>
        rcases Nat.mod_two_eq_zero_or_one v2 with hv2 | hv2 <;>
        simp [hv1, hv2] at this ⊢
    omega

theorem leadOf_length_le {c1 c2 : List Bool} (h : leadOf c1 c2 = true) :
    c1.length ≤ c2.length := by
  rw [leadOf, beq_iff_eq] at h
  have := congrArg List.length h
  rw [List.length_take] at this
  omega

theorem leadOf_natCode {n1 n2 v1 v2 : Nat} (hle : n1 ≤ n2)
    (h1 : v1 < 2 ^ n1) (h2 : v2 < 2 ^ n2)
    (h : leadOf (natCode n1 v1) (natCode n2 v2) = true) :
    v1 = v2 / 2 ^ (n2 - n1) := by
  rw [leadOf, beq_iff_eq, natCode_length] at h
  have hsplit : n2 = n1 + (n2 - n1) := by omega
  rw [hsplit, natCode_take] at h
  have hlt : v2 / 2 ^ (n2 - n1) < 2 ^ n1 := by
    apply Nat.div_lt_of_lt_mul
    rw [← pow_add]
    have hee : n2 - n1 + n1 = n2 := by omega
    rw [hee]
    exact h2
  exact (natCode_inj n1 _ _ hlt h1 h).symm

theorem natCode_nonLead {L l1 l2 v1 v2 : Nat}
    (hl1 : l1 ≤ L) (hl2 : l2 ≤ L)
    (hb1 : v1 + 1 ≤ 2 ^ l1) (hb2 : v2 + 1 ≤ 2 ^ l2)
    (hdisj : (v1 + 1) * 2 ^ (L - l1) ≤ v2 * 2 ^ (L - l2)) :
    leadOf (natCode l1 v1) (natCode l2 v2) = false ∧
    leadOf (natCode l2 v2) (natCode l1 v1) = false := by
  constructor
  · by_contra hlead
    have hlead' : leadOf (natCode l1 v1) (natCode l2 v2) = true := by
      cases h : leadOf (natCode l1 v1) (natCode l2 v2)
      · exact absurd h hlead
      · rfl
    have hll : l1 ≤ l2 := by
      have := leadOf_length_le hlead'
      rwa [natCode_length, natCode_length] at this
    have hv : v1 = v2 / 2 ^ (l2 - l1) := leadOf_natCode hll (by omega) (by omega) hlead'
    have hexp : L - l1 = (l2 - l1) + (L - l2) := by omega
    rw [hexp, pow_add, ← Nat.mul_assoc] at hdisj
    have hineq : (v1 + 1) * 2 ^ (l2 - l1) ≤ v2 :=
      Nat.le_of_mul_le_mul_right hdisj (Nat.pos_pow_of_pos _ (by omega))
    have : v1 + 1 ≤ v2 / 2 ^ (l2 - l1) :=
      (Nat.le_div_iff_mul_le (Nat.pos_pow_of_pos _ (by omega))).mpr hineq
    omega
  · by_contra hlead
    have hlead' : leadOf (natCode l2 v2) (natCode l1 v1) = true := by
      cases h : leadOf (natCode l2 v2) (natCode l1 v1)
      · exact absurd h hlead
      · rfl
    have hll : l2 ≤ l1 := by
      have := leadOf_length_le hlead'
      rwa [natCode_length, natCode_length] at this
    have hv : v2 = v1 / 2 ^ (l1 - l2) := leadOf_natCode hll (by omega) (by omega) hlead'
    have hexp : L - l2 = (l1 - l2) + (L - l1) := by omega
    rw [hexp, pow_add, ← Nat.mul_assoc] at hdisj
    have hineq : v1 + 1 ≤ v2 * 2 ^ (l1 - l2) :=
      Nat.le_of_mul_le_mul_right hdisj (Nat.pos_pow_of_pos _ (by omega))
    have : v1 / 2 ^ (l1 - l2) < v2 := by
      apply Nat.div_lt_of_lt_mul
      calc v1 < v2 * 2 ^ (l1 - l2) := by omega
        _ = 2 ^ (l1 - l2) * v2 := Nat.mul_comm _ _
    omega

theorem intBit_natCast (v i : Nat) : intBit (v : Int) i = (v / 2 ^ i % 2 == 1) := by
  rw [intBit, Bool.eq_iff_iff]
  simp only [beq_iff_eq]
  norm_cast

theorem wrap32_eq_self {v : Int} (h0 : 0 ≤ v) (h1 : v < 2147483648) :
    wrap32 v = v := by
  rw [wrap32]
  omega

theorem codeBits_natCast (l : Int) (v : Nat) (h32 : l.toNat ≤ 32) :
    codeBits l (v : Int) = natCode l.toNat v := by
  rw [codeBits, natCode]
  apply List.map_congr_left
  intro k hk
  have hk' : k < l.toNat := List.mem_range.mp hk
  have hm : (l.toNat - 1 - k) % 32 = l.toNat - 1 - k := Nat.mod_eq_of_lt (by omega)
  rw [hm]
  exact intBit_natCast v _

theorem alInsert_mem {κ β : Type} [LinearOrder κ] {k : κ} {v : β} :
    ∀ {m : List (κ × β)} {x : κ × β}, x ∈ alInsert k v m → x = (k, v) ∨ x ∈ m := by
  intro m
  induction m with
  | nil => intro x hx; simp [alInsert] at hx; exact Or.inl hx
  | cons hd t ih =>
    obtain ⟨k1, v1⟩ := hd
    intro x hx
    by_cases h1 : k < k1
    · simp only [alInsert, if_pos h1] at hx
      rcases List.mem_cons.mp hx with h | h
      · exact Or.inl h
      · exact Or.inr h
    · by_cases h2 : k = k1
      · simp only [alInsert, if_neg h1, if_pos h2] at hx
        rcases List.mem_cons.mp hx with h | h
        · exact Or.inl h
        · exact Or.inr (List.mem_cons.mpr (Or.inr h))
      · simp only [alInsert, if_neg h1, if_neg h2] at hx
        rcases List.mem_cons.mp hx with h | h
        · exact Or.inr (List.mem_cons.mpr (Or.inl h))
        · rcases ih h with h' | h'
          · exact Or.inl h'
          · exact Or.inr (List.mem_cons.mpr (Or.inr h'))

theorem alGet_mem {κ β : Type} [DecidableEq κ] {k : κ} {v : β} :
    ∀ {m : List (κ × β)}, alGet k m = some v → (k, v) ∈ m := by
  intro m
  induction m with
  | nil => intro h; simp [alGet] at h
  | cons hd t ih =>
    obtain ⟨k1, v1⟩ := hd
    intro h
    by_cases h1 : k = k1
    · simp only [alGet, if_pos h1, Option.some.injEq] at h
      subst h1; subst h
      exact List.mem_cons_self _ _
    · simp only [alGet, if_neg h1] at h
      exact List.mem_cons.mpr (Or.inr (ih h))

theorem alInsert_front {κ β : Type} [LinearOrder κ] {k : κ} {v : β}
    {m : List (κ × β)} (h : ∀ x ∈ m, k < x.1) : alInsert k v m = (k, v) :: m := by
  cases m with
  | nil => rfl
  | cons hd t =>
    obtain ⟨k1, v1⟩ := hd
    have := h (k1, v1) (List.mem_cons_self _ _)
    simp only [alInsert, if_pos this]

theorem sorted_all_gt {κ β : Type} [LinearOrder κ] {k1 : κ} {v1 : β}
    {t : List (κ × β)}
    (h : List.Chain' (fun a b : κ × β => a.1 < b.1) ((k1, v1) :: t)) :
    ∀ x ∈ t, k1 < x.1 := by
  induction t generalizing k1 v1 with
  | nil => intro x hx; simp at hx
  | cons hd t2 ih =>
    intro x hx
    obtain ⟨k2, v2⟩ := hd
    have h12 : k1 < k2 := (List.chain'_cons.mp h).1
    rcases List.mem_cons.mp hx with h' | h'
    · rw [h']; exact h12
    · exact h12.trans (ih (List.chain'_cons.mp h).2 x h')

theorem alGet_of_mem_sorted {κ β : Type} [LinearOrder κ] {k : κ} {v : β} :
    ∀ {m : List (κ × β)}, List.Chain' (fun a b : κ × β => a.1 < b.1) m →
      (k, v) ∈ m → alGet k m = some v := by
  intro m
  induction m with
  | nil => intro _ hm; simp at hm
  | cons hd t ih =>
    obtain ⟨k1, v1⟩ := hd
    intro hs hm
    rcases List.mem_cons.mp hm with h | h
    · obtain ⟨rfl, rfl⟩ := Prod.mk.injEq .. ▸ h
      injection h with h1 h2
      simp [alGet]
    · have hk : k1 < k := sorted_all_gt hs (k, v) h
      have hne : k ≠ k1 := by intro hh; rw [hh] at hk; exact lt_irrefl _ hk
      rw [alGet, if_neg hne]
      exact ih (List.chain'_cons'.mp hs).2 h

theorem alInsert_sorted {κ β : Type} [LinearOrder κ] (k : κ) (v : β) :
    ∀ {m : List (κ × β)}, List.Chain' (fun a b : κ × β => a.1 < b.1) m →
      List.Chain' (fun a b : κ × β => a.1 < b.1) (alInsert k v m) := by
  intro m
  induction m with
  | nil => intro _; simp [alInsert]
  | cons hd t ih =>
    obtain ⟨k1, v1⟩ := hd
    intro hs
    by_cases h1 : k < k1
    · rw [alInsert, if_pos h1]
      exact List.chain'_cons.mpr ⟨h1, hs⟩
    · by_cases h2 : k = k1
      · rw [alInsert, if_neg h1, if_pos h2]
        refine List.chain'_cons'.mpr ⟨?_, (List.chain'_cons'.mp hs).2⟩
        intro b hb
        have := (List.chain'_cons'.mp hs).1 b hb
        rw [h2]
        exact this
      · rw [alInsert, if_neg h1, if_neg h2]
        have hk1k : k1 < k := by
          rcases lt_trichotomy k k1 with h | h | h
          · exact absurd h h1
          · exact absurd h h2
          · exact h
        refine List.chain'_cons'.mpr ⟨?_, ih (List.chain'_cons'.mp hs).2⟩
        intro b hb
        cases t with
        | nil =>
          simp only [alInsert, List.head?_cons, Option.mem_def, Option.some.injEq] at hb
          rw [← hb]
          exact hk1k
        | cons hd2 t2 =>
          obtain ⟨k2, v2⟩ := hd2
          have hk12 : k1 < k2 := (List.chain'_cons.mp hs).1
          by_cases h3 : k < k2
          · simp only [alInsert, if_pos h3, List.head?_cons, Option.mem_def,
              Option.some.injEq] at hb
            rw [← hb]
            exact hk1k
          · by_cases h4 : k = k2
            · simp only [alInsert, if_neg h3, if_pos h4, List.head?_cons, Option.mem_def,
                Option.some.injEq] at hb
              rw [← hb]
              exact hk1k
            · simp only [alInsert, if_neg h3, if_neg h4, List.head?_cons, Option.mem_def,
                Option.some.injEq] at hb
              rw [← hb]
              exact hk12

theorem countsGo_sorted : ∀ (ps : List SymbolLengthPair) (m : List (Int × Int)),
    List.Chain' (fun a b : Int × Int => a.1 < b.1) m →
    List.Chain' (fun a b : Int × Int => a.1 < b.1) (countsGo ps m) := by
  intro ps
  induction ps with
  | nil => intro m hm; exact hm
  | cons p rest ih =>
    intro m hm
    exact ih _ (alInsert_sorted _ _ hm)

theorem countsGo_key_src : ∀ (ps : List SymbolLengthPair) (m : List (Int × Int))
    (x : Int × Int), x ∈ countsGo ps m →
    x.1 ∈ m.map Prod.fst ∨ ∃ p ∈ ps, p.length = x.1 := by
  intro ps
  induction ps with
  | nil =>
    intro m x hx
    exact Or.inl (List.mem_map.mpr ⟨x, hx, rfl⟩)
  | cons p rest ih =>
    intro m x hx
    rcases ih _ x hx with h | ⟨q, hq, hql⟩
    · obtain ⟨y, hy, hyk⟩ := List.mem_map.mp h
      rcases alInsert_mem hy with h' | h'
      · subst h'
        exact Or.inr ⟨p, List.mem_cons_self _ _, hyk⟩
      · exact Or.inl (List.mem_map.mpr ⟨y, h', hyk⟩)
    · exact Or.inr ⟨q, List.mem_cons.mpr (Or.inr hq), hql⟩

theorem countsGo_get : ∀ (ps : List SymbolLengthPair) (m : List (Int × Int)) (l : Int),
    alGet l (countsGo ps m) =
      match alGet l m with
      | some v => some (v + (cntIn ps l : Int))
      | none => if cntIn ps l = 0 then none else some ((cntIn ps l : Int)) := by
  intro ps
  induction ps with
  | nil =>
    intro m l
    cases halg : alGet l m <;> simp [countsGo, cntIn, halg]
  | cons p rest ih =>
    intro m l
    rw [countsGo, ih]
    by_cases hl : l = p.length
    · subst hl
      rw [alGet_alInsert_self]
      have hcnt : cntIn (p :: rest) p.length = cntIn rest p.length + 1 := by
        simp [cntIn, List.filter_cons]
      rw [hcnt]
      cases halg : alGet p.length m
      · simp only [halg, Option.getD_none]
        have hc : (0 : Int) + 1 + (cntIn rest p.length : Int) =
            ((cntIn rest p.length + 1 : Nat) : Int) := by
          push_cast; ring
        rw [hc]
        simp
      · rename_i v
        simp only [halg, Option.getD_some]
        have hc : v + 1 + (cntIn rest p.length : Int) =
            v + ((cntIn rest p.length + 1 : Nat) : Int) := by
          push_cast; ring
        rw [hc]
    · rw [alGet_alInsert_ne hl]
      have hcnt : cntIn (p :: rest) l = cntIn rest l := by
        simp only [cntIn, List.filter_cons]
        rw [if_neg (by simpa using fun hh => hl hh.symm)]
      rw [hcnt]

theorem counts_get (pairs : List SymbolLengthPair) (l : Int) :
    alGet l (buildLengthsCounts pairs) =
      if l = 0 then some 0
      else if cntIn pairs l = 0 then none else some ((cntIn pairs l : Int)) := by
  rw [buildLengthsCounts]
  by_cases h0 : l = 0
  · subst h0
    rw [alGet_alInsert_self, if_pos rfl]
  · rw [alGet_alInsert_ne h0, if_neg h0, countsGo_get]
    simp [alGet]

theorem buildLengthsCounts_sorted (pairs : List SymbolLengthPair) :
    List.Chain' (fun a b : Int × Int => a.1 < b.1) (buildLengthsCounts pairs) :=
  alInsert_sorted _ _ (countsGo_sorted pairs [] List.chain'_nil)

theorem m0_cons (pairs : List SymbolLengthPair) (hpos : ∀ p ∈ pairs, 1 ≤ p.length) :
    buildLengthsCounts pairs = (0, 0) :: countsGo pairs [] := by
  rw [buildLengthsCounts]
  apply alInsert_front
  intro x hx
  rcases countsGo_key_src pairs [] x hx with h | ⟨p, hp, hpl⟩
  · simp at h
  · have := hpos p hp
    omega

theorem maxLen_ge (pairs : List SymbolLengthPair) :
    ∀ p ∈ pairs, p.length.toNat ≤ maxLen pairs := by
  induction pairs with
  | nil => intro p hp; simp at hp
  | cons q rest ih =>
    intro p hp
    rcases List.mem_cons.mp hp with h | h
    · rw [h, maxLen, List.foldr_cons]
      exact Nat.le_max_left _ _
    · rw [maxLen, List.foldr_cons]
      exact (ih p h).trans (Nat.le_max_right _ _)

theorem maxLen_le_of (pairs : List SymbolLengthPair)
    (hlen : ∀ p ∈ pairs, p.length ≤ 30) : maxLen pairs ≤ 30 := by
  induction pairs with
  | nil => exact Nat.zero_le _
  | cons p t ih =>
    have hp := hlen p (List.mem_cons_self _ _)
    have ht := ih (fun q hq => hlen q (List.mem_cons.mpr (Or.inr hq)))
    have hstep : maxLen (p :: t) = max p.length.toNat (maxLen t) := rfl
    rw [hstep]
    omega

theorem cntIn_append (a b : List SymbolLengthPair) (l : Int) :
    cntIn (a ++ b) l = cntIn a l + cntIn b l := by
  simp [cntIn, List.filter_append]

theorem cntIn_cons (p : SymbolLengthPair) (rest : List SymbolLengthPair) (l : Int) :
    cntIn (p :: rest) l = (if p.length = l then 1 else 0) + cntIn rest l := by
  by_cases h : p.length = l
  · simp [cntIn, List.filter_cons, h]
    omega
  · simp [cntIn, List.filter_cons, h]

theorem cntIn_pos_iff (li : List SymbolLengthPair) (l : Int) :
    0 < cntIn li l ↔ ∃ p ∈ li, p.length = l := by
  induction li with
  | nil => simp [cntIn]
  | cons p rest ih =>
    rw [cntIn_cons]
    by_cases h : p.length = l
    · simp [h]
    · simp only [if_neg h]
      rw [Nat.zero_add, ih]
      constructor
      · rintro ⟨q, hq, hql⟩
        exact ⟨q, List.mem_cons.mpr (Or.inr hq), hql⟩
      · rintro ⟨q, hq, hql⟩
        rcases List.mem_cons.mp hq with h' | h'
        · rw [h'] at hql; exact absurd hql h
        · exact ⟨q, h', hql⟩

theorem sumBelow_cons (p : SymbolLengthPair) (rest : List SymbolLengthPair)
    (L : Nat) (x : Int) :
    sumBelow (p :: rest) L x =
      (if p.length < x then lenWeight L p else 0) + sumBelow rest L x := by
  by_cases h : p.length < x <;> simp [sumBelow, List.filter_cons, h]

theorem sumBelow_succ (li : List SymbolLengthPair) (L : Nat) (l : Int) :
    sumBelow li L (l + 1) = sumBelow li L l + cntIn li l * 2 ^ (L - l.toNat) := by
  induction li with
  | nil => simp [sumBelow, cntIn]
  | cons p rest ih =>
    rw [sumBelow_cons, sumBelow_cons, cntIn_cons, ih]
    rcases lt_trichotomy p.length l with h | h | h
    · rw [if_pos (by omega), if_pos h, if_neg (by omega)]
      ring
    · rw [if_pos (by omega), if_neg (by omega), if_pos h]
      have hw : lenWeight L p = 2 ^ (L - l.toNat) := by
        rw [lenWeight, h]
      rw [hw]
      ring
    · rw [if_neg (by omega), if_neg (by omega), if_neg (by omega)]
      ring

theorem sumBelow_min (li : List SymbolLengthPair) (L : Nat) (k : Int)
    (h : ∀ p ∈ li, k ≤ p.length) : sumBelow li L k = 0 := by
  induction li with
  | nil => simp [sumBelow]
  | cons p rest ih =>
    rw [sumBelow_cons, if_neg (by have := h p (List.mem_cons_self _ _); omega),
      ih (fun q hq => h q (List.mem_cons.mpr (Or.inr hq)))]

theorem sum_split3 (li : List SymbolLengthPair) (L : Nat) (l : Int) :
    (li.map (lenWeight L)).sum =
      sumBelow li L l +
      ((li.filter (fun p => p.length = l)).map (lenWeight L)).sum +
      ((li.filter (fun p => l < p.length)).map (lenWeight L)).sum := by
  induction li with
  | nil => simp [sumBelow]
  | cons p rest ih =>
    rw [List.map_cons, List.sum_cons, sumBelow_cons]
    rcases lt_trichotomy p.length l with h | h | h
    · rw [if_pos h, List.filter_cons_of_neg (by simpa using by omega),
        List.filter_cons_of_neg (by simpa using by omega)]
      rw [ih]; ring
    · rw [if_neg (by omega), List.filter_cons_of_pos (by simpa using h),
        List.filter_cons_of_neg (by simpa using by omega)]
      rw [List.map_cons, List.sum_cons, ih]; ring
    · rw [if_neg (by omega), List.filter_cons_of_neg (by simpa using by omega),
        List.filter_cons_of_pos (by simpa using h)]
      rw [List.map_cons, List.sum_cons, ih]; ring

theorem sum_filter_eq_cnt (li : List SymbolLengthPair) (L : Nat) (l : Int) :
    ((li.filter (fun p => p.length = l)).map (lenWeight L)).sum =
      cntIn li l * 2 ^ (L - l.toNat) := by
  induction li with
  | nil => simp [cntIn]
  | cons p rest ih =>
    rw [cntIn_cons]
    by_cases h : p.length = l
    · rw [List.filter_cons_of_pos (by simpa using h), List.map_cons, List.sum_cons, ih]
      have hw : lenWeight L p = 2 ^ (L - l.toNat) := by rw [lenWeight, h]
      rw [hw, if_pos h]
      ring
    · rw [List.filter_cons_of_neg (by simpa using h), ih, if_neg h]
      ring

theorem kraft_total (pairs : List SymbolLengthPair)
    (hpos : ∀ p ∈ pairs, 1 ≤ p.length) (hk : kraftEq pairs) :
    (pairs.map (lenWeight (maxLen pairs))).sum = 2 ^ maxLen pairs := by
  rw [kraftEq, kraftSum] at hk
  have hfilter : pairs.filter (fun p => 0 < p.length) = pairs :=
    List.filter_eq_self.mpr (fun p hp => by
      have := hpos p hp
      simpa using by omega)
  rw [hfilter] at hk
  exact hk

theorem kraft_partial (pairs : List SymbolLengthPair) (L : Nat) (l : Int) :
    sumBelow pairs L l + cntIn pairs l * 2 ^ (L - l.toNat) ≤
      (pairs.map (lenWeight L)).sum := by
  rw [sum_split3 pairs L l, sum_filter_eq_cnt]
  omega

theorem chainSucc_all_gt :
    ∀ {ks : List Int} {k : Int},
      List.Chain' (fun a b : Int => b = a + 1) (k :: ks) → ∀ x ∈ ks, k < x := by
  intro ks
  induction ks with
  | nil => intro k _ x hx; simp at hx
  | cons k2 kt ih =>
    intro k h x hx
    have h12 : k2 = k + 1 := (List.chain'_cons.mp h).1
    rcases List.mem_cons.mp hx with h' | h'
    · omega
    · have := ih (List.chain'_cons.mp h).2 x h'
      omega

theorem codesGo_suffix (pairs : List SymbolLengthPair) (L : Nat)
    (htot : (pairs.map (lenWeight L)).sum = 2 ^ L) (hL : L ≤ 30) :
    ∀ (ks : List Int) (code prev : Int),
      List.Chain' (fun a b : Int => b = a + 1) ks →
      (∀ k ∈ ks, 1 ≤ k ∧ k.toNat ≤ L ∧ 0 < cntIn pairs k) →
      (∀ k, ks.head? = some k →
        ∃ cpv : Int, alGet prev (buildLengthsCounts pairs) = some cpv ∧
          0 ≤ code + cpv ∧
          ((code + cpv) * 2).toNat * 2 ^ (L - k.toNat) = sumBelow pairs L k) →
      ∃ E, codesGo (buildLengthsCounts pairs) ks code prev = some E ∧
        ∀ l ∈ ks, ∃ cN : Nat, alGet l E = some ((cN : Int)) ∧
          cN * 2 ^ (L - l.toNat) = sumBelow pairs L l := by
  intro ks
  induction ks with
  | nil =>
    intro code prev _ _ _
    exact ⟨[], rfl, by simp⟩
  | cons k ks' ih =>
    intro code prev hchain hgood hentry
    obtain ⟨cpv, hcpv, hnn, hscale⟩ := hentry k rfl
    obtain ⟨hk1, hkL, hkcnt⟩ := hgood k (List.mem_cons_self _ _)
    have hkp := kraft_partial pairs L k
    rw [htot] at hkp
    have hpowk : 2 ^ L = 2 ^ k.toNat * 2 ^ (L - k.toNat) := by
      rw [← pow_add]
      congr 1
      omega
    have hvcnt : ((code + cpv) * 2).toNat + cntIn pairs k ≤ 2 ^ k.toNat := by
      have h1 : (((code + cpv) * 2).toNat + cntIn pairs k) * 2 ^ (L - k.toNat) ≤
          2 ^ k.toNat * 2 ^ (L - k.toNat) := by
        rw [Nat.add_mul, hscale, ← hpowk]
        omega
      exact Nat.le_of_mul_le_mul_right h1 (Nat.pos_pow_of_pos _ (by omega))
    have hvlt : ((code + cpv) * 2).toNat < 1073741824 := by
      have hkpow : (2 : Nat) ^ k.toNat ≤ 2 ^ 30 :=
        Nat.pow_le_pow_right (by omega) (by omega)
      have h30 : (2 : Nat) ^ 30 = 1073741824 := by norm_num
      omega
    have hwrap : wrap32 ((code + cpv) * 2) = (code + cpv) * 2 := by
      apply wrap32_eq_self (by omega)
      omega
    have hentry' : ∀ k2, ks'.head? = some k2 →
        ∃ cpv2 : Int, alGet k (buildLengthsCounts pairs) = some cpv2 ∧
          0 ≤ (code + cpv) * 2 + cpv2 ∧
          (((code + cpv) * 2 + cpv2) * 2).toNat * 2 ^ (L - k2.toNat) =
            sumBelow pairs L k2 := by
      intro k2 hk2
      have hk2mem : k2 ∈ ks' := by
        cases ks' with
        | nil => simp at hk2
        | cons a t =>
          simp only [List.head?_cons, Option.some.injEq] at hk2
          rw [← hk2]
          exact List.mem_cons_self _ _
      have hk2succ : k2 = k + 1 := by
        cases ks' with
        | nil => simp at hk2
        | cons a t =>
          simp only [List.head?_cons, Option.some.injEq] at hk2
          rw [← hk2]
          exact (List.chain'_cons.mp hchain).1
      obtain ⟨_, hk2L, _⟩ := hgood k2 (List.mem_cons.mpr (Or.inr hk2mem))
      refine ⟨(cntIn pairs k : Int), ?_, ?_, ?_⟩
      · rw [counts_get, if_neg (by omega), if_neg (by omega)]
      · have : (0 : Int) ≤ (cntIn pairs k : Int) := Int.natCast_nonneg _
        omega
      · have hc0 : 0 ≤ (code + cpv) * 2 := by omega
        have htn : (((code + cpv) * 2 + (cntIn pairs k : Int)) * 2).toNat =
            (((code + cpv) * 2).toNat + cntIn pairs k) * 2 := by omega
        rw [htn]
        have hk2n : k2.toNat = k.toNat + 1 := by omega
        have hLs : L - k.toNat = (L - k2.toNat) + 1 := by omega
        calc (((code + cpv) * 2).toNat + cntIn pairs k) * 2 * 2 ^ (L - k2.toNat)
            = (((code + cpv) * 2).toNat + cntIn pairs k) * 2 ^ ((L - k2.toNat) + 1) := by
              rw [pow_succ]; ring
          _ = (((code + cpv) * 2).toNat + cntIn pairs k) * 2 ^ (L - k.toNat) := by rw [hLs]
          _ = ((code + cpv) * 2).toNat * 2 ^ (L - k.toNat) +
              cntIn pairs k * 2 ^ (L - k.toNat) := by ring
          _ = sumBelow pairs L k + cntIn pairs k * 2 ^ (L - k.toNat) := by rw [hscale]
          _ = sumBelow pairs L (k + 1) := (sumBelow_succ pairs L k).symm
          _ = sumBelow pairs L k2 := by rw [hk2succ]
    obtain ⟨E', hE', hprops⟩ :=
      ih ((code + cpv) * 2) k (List.chain'_cons'.mp hchain).2
        (fun x hx => hgood x (List.mem_cons.mpr (Or.inr hx))) hentry'
    refine ⟨(k, (code + cpv) * 2) :: E', ?_, ?_⟩
    · rw [codesGo, hcpv]
      dsimp only
      rw [hwrap, hE']
    · intro l hl
      rcases List.mem_cons.mp hl with h | h
      · subst h
        refine ⟨((code + cpv) * 2).toNat, ?_, hscale⟩
        rw [alGet, if_pos rfl, Int.toNat_of_nonneg (by omega)]
      · have hlk : l ≠ k := by
          have := chainSucc_all_gt hchain l h
          omega
        obtain ⟨cN, hget, hsc⟩ := hprops l h
        exact ⟨cN, by rw [alGet, if_neg hlk]; exact hget, hsc⟩

theorem codes_init (pairs : List SymbolLengthPair)
    (hpos : ∀ p ∈ pairs, 1 ≤ p.length) (hcontig : keysContiguous pairs)
    (htot : (pairs.map (lenWeight (maxLen pairs))).sum = 2 ^ maxLen pairs)
    (hL : maxLen pairs ≤ 30) :
    ∃ codes, buildLengthsCodes (buildLengthsCounts pairs) = some codes ∧
      ∀ l : Int, (∃ p ∈ pairs, p.length = l) →
        ∃ cN : Nat, alGet l codes = some ((cN : Int)) ∧
          cN * 2 ^ (maxLen pairs - l.toNat) = sumBelow pairs (maxLen pairs) l := by
  have hm0 := m0_cons pairs hpos
  have hpresent : ∀ l : Int, (∃ p ∈ pairs, p.length = l) →
      l ∈ (countsGo pairs []).map Prod.fst ∧ 1 ≤ l ∧ 0 < cntIn pairs l := by
    intro l hl
    obtain ⟨p, hp, hpl⟩ := hl
    have hl1 : 1 ≤ l := hpl ▸ hpos p hp
    have hcnt : 0 < cntIn pairs l := (cntIn_pos_iff _ _).mpr ⟨p, hp, hpl⟩
    have hget : alGet l (buildLengthsCounts pairs) = some ((cntIn pairs l : Int)) := by
      rw [counts_get, if_neg (by omega), if_neg (by omega)]
    have hmem := alGet_mem hget
    rw [hm0] at hmem
    rcases List.mem_cons.mp hmem with h | h
    · exfalso
      have : l = 0 := congrArg Prod.fst h
      omega
    · exact ⟨List.mem_map.mpr ⟨_, h, rfl⟩, hl1, hcnt⟩
  have hchainP : List.Chain' (fun a b : Int => b = a + 1)
      ((countsGo pairs []).map Prod.fst) := by
    have hc := hcontig
    rw [keysContiguous, hm0] at hc
    simp only [List.map_cons, List.tail_cons] at hc
    rw [chainB_iff] at hc
    refine hc.imp ?_
    intro a b hab
    exact (beq_iff_eq ..).mp hab
  have hgoodP : ∀ k ∈ (countsGo pairs []).map Prod.fst,
      1 ≤ k ∧ k.toNat ≤ maxLen pairs ∧ 0 < cntIn pairs k := by
    intro k hk
    obtain ⟨x, hmem, hfst⟩ := List.mem_map.mp hk
    have hk1 : 1 ≤ k := by
      rcases countsGo_key_src pairs [] _ hmem with h | ⟨p, hp, hpl⟩
      · simp at h
      · have := hpos p hp
        omega
    have hget : alGet k (buildLengthsCounts pairs) = some x.2 := by
      apply alGet_of_mem_sorted (buildLengthsCounts_sorted pairs)
      rw [hm0]
      refine List.mem_cons.mpr (Or.inr ?_)
      have hx : (k, x.2) = x := by
        rw [← hfst]
      rw [hx]
      exact hmem
    rw [counts_get, if_neg (by omega)] at hget
    have hcnt : 0 < cntIn pairs k := by
      by_cases hc : cntIn pairs k = 0
      · rw [if_pos hc] at hget; exact absurd hget (by simp)
      · omega
    obtain ⟨p, hp, hpl⟩ := (cntIn_pos_iff pairs k).mp hcnt
    have hkL : k.toNat ≤ maxLen pairs := by
      rw [← hpl]
      exact maxLen_ge pairs p hp
    exact ⟨hk1, hkL, hcnt⟩
  have hentry : ∀ k2, ((countsGo pairs []).map Prod.fst).head? = some k2 →
      ∃ cpv : Int, alGet (0 : Int) (buildLengthsCounts pairs) = some cpv ∧
        0 ≤ (0 : Int) + cpv ∧
        (((0 : Int) + cpv) * 2).toNat * 2 ^ (maxLen pairs - k2.toNat) =
          sumBelow pairs (maxLen pairs) k2 := by
    intro k2 hk2
    refine ⟨0, by rw [counts_get, if_pos rfl], by norm_num, ?_⟩
    have h0 : (((0 : Int) + 0) * 2).toNat = 0 := by norm_num
    rw [h0, Nat.zero_mul]
    symm
    apply sumBelow_min
    intro p hp
    obtain ⟨hpmem, _, _⟩ := hpresent p.length ⟨p, hp, rfl⟩
    cases hks : (countsGo pairs []).map Prod.fst with
    | nil => rw [hks] at hk2; simp at hk2
    | cons kh kt =>
      rw [hks] at hk2
      simp only [List.head?_cons, Option.some.injEq] at hk2
      subst hk2
      rw [hks] at hpmem hchainP
      rcases List.mem_cons.mp hpmem with h | h
      · omega
      · have := chainSucc_all_gt hchainP p.length h
        omega
  obtain ⟨E, hE, hEprops⟩ :=
    codesGo_suffix pairs (maxLen pairs) htot hL ((countsGo pairs []).map Prod.fst) 0 0
      hchainP hgoodP hentry
  refine ⟨(0, (0 : Int)) :: E, ?_, ?_⟩
  · rw [buildLengthsCodes]
    have hmap : (buildLengthsCounts pairs).map (·.1) =
        (0 : Int) :: (countsGo pairs []).map Prod.fst := by
      rw [hm0]
      rfl
    have hget0' : alGet (0 : Int) (buildLengthsCounts pairs) = some 0 := by
      rw [hm0, alGet, if_pos rfl]
    rw [hmap, codesGo, hget0']
    dsimp only
    have h00 : wrap32 (((0 : Int) + 0) * 2) = 0 := by decide
    rw [h00, hE]
  · intro l hl
    obtain ⟨hmem, hl1, _⟩ := hpresent l hl
    obtain ⟨cN, hget, hscale⟩ := hEprops l hmem
    refine ⟨cN, ?_, hscale⟩
    rw [alGet, if_neg (by omega)]
    exact hget

theorem sumBelow_append (a b : List SymbolLengthPair) (L : Nat) (l : Int) :
    sumBelow (a ++ b) L l = sumBelow a L l + sumBelow b L l := by
  simp [sumBelow, List.filter_append]

theorem lutGo_master (pairs : List SymbolLengthPair)
    (hsort : List.Pairwise canonicalLe pairs)
    (hpos : ∀ p ∈ pairs, 1 ≤ p.length)
    (htot : (pairs.map (lenWeight (maxLen pairs))).sum = 2 ^ maxLen pairs)
    (hL : maxLen pairs ≤ 30) :
    ∀ (rest done : List SymbolLengthPair) (codes : List (Int × Int))
      (tbl tblF : List (Nat × List Bool)) (cF : List (Int × Int)),
      pairs = done ++ rest →
      lutGo rest codes tbl = some (tblF, cF) →
      (∀ l : Int, (∃ p ∈ rest, p.length = l) →
        ∃ cN : Nat, alGet l codes = some ((cN : Int)) ∧
          cN * 2 ^ (maxLen pairs - l.toNat) =
            sumBelow pairs (maxLen pairs) l +
              cntIn done l * 2 ^ (maxLen pairs - l.toNat)) →
      (∀ s c, alGet s tbl = some c → ∃ lv : Nat × Nat,
        1 ≤ lv.1 ∧ lv.1 ≤ maxLen pairs ∧ lv.2 + 1 ≤ 2 ^ lv.1 ∧
        c = natCode lv.1 lv.2 ∧
        (lv.2 + 1) * 2 ^ (maxLen pairs - lv.1) ≤
          (done.map (lenWeight (maxLen pairs))).sum) →
      (∀ s1 s2 c1 c2, s1 ≠ s2 → alGet s1 tbl = some c1 → alGet s2 tbl = some c2 →
        leadOf c1 c2 = false) →
      ∀ s1 s2 c1 c2, s1 ≠ s2 → alGet s1 tblF = some c1 → alGet s2 tblF = some c2 →
        leadOf c1 c2 = false := by
  intro rest
  induction rest with
  | nil =>
    intro done codes tbl tblF cF hsplit hrun hminv htgood htpair
    simp only [lutGo, Option.some.injEq, Prod.mk.injEq] at hrun
    obtain ⟨h1, _⟩ := hrun
    rw [← h1]
    exact htpair
  | cons p rest2 ih =>
    intro done codes tbl tblF cF hsplit hrun hminv htgood htpair
    have hpmem : p ∈ pairs := by
      rw [hsplit]
      exact List.mem_append.mpr (Or.inr (List.mem_cons_self _ _))
    have hp1 : 1 ≤ p.length := hpos p hpmem
    have hpL : p.length.toNat ≤ maxLen pairs := maxLen_ge pairs p hpmem
    obtain ⟨cN, hget, hscale⟩ := hminv p.length ⟨p, List.mem_cons_self _ _, rfl⟩
    rw [lutGo, hget] at hrun
    dsimp only at hrun
    have hPW : List.Pairwise canonicalLe (done ++ p :: rest2) := hsplit ▸ hsort
    obtain ⟨hPWd, hPWc, hcross⟩ := List.pairwise_append.mp hPW
    have hdone_le : ∀ d ∈ done, d.length ≤ p.length := by
      intro d hd
      rcases hcross d hd p (List.mem_cons_self _ _) with h | ⟨h, _⟩
      · exact le_of_lt h
      · exact le_of_eq h
    have hrest_ge : ∀ q ∈ rest2, p.length ≤ q.length := by
      intro q hq
      rcases (List.pairwise_cons.mp hPWc).1 q hq with h | ⟨h, _⟩
      · exact le_of_lt h
      · exact le_of_eq h
    have hfilter_gt : done.filter (fun q => p.length < q.length) = [] := by
      apply List.filter_eq_nil_iff.mpr
      intro d hd
      have := hdone_le d hd
      simpa using by omega
    have hsb_eq : sumBelow done (maxLen pairs) p.length =
        sumBelow pairs (maxLen pairs) p.length := by
      have h2 : sumBelow (p :: rest2) (maxLen pairs) p.length = 0 := by
        apply sumBelow_min
        intro q hq
        rcases List.mem_cons.mp hq with h | h
        · rw [h]
        · exact hrest_ge q h
      have h1 : sumBelow pairs (maxLen pairs) p.length =
          sumBelow done (maxLen pairs) p.length +
          sumBelow (p :: rest2) (maxLen pairs) p.length := by
        calc sumBelow pairs (maxLen pairs) p.length
            = sumBelow (done ++ p :: rest2) (maxLen pairs) p.length := by rw [← hsplit]
          _ = _ := sumBelow_append _ _ _ _
      omega
    have hA : (done.map (lenWeight (maxLen pairs))).sum =
        cN * 2 ^ (maxLen pairs - p.length.toNat) := by
      rw [sum_split3 done (maxLen pairs) p.length, hfilter_gt,
        sum_filter_eq_cnt, hsb_eq]
      simp only [List.map_nil, List.sum_nil, Nat.add_zero]
      omega
    have hcnt_ge : cntIn done p.length + 1 ≤ cntIn pairs p.length := by
      have := cntIn_append done (p :: rest2) p.length
      rw [← hsplit] at this
      rw [this, cntIn_cons, if_pos rfl]
      omega
    have hbound2 : sumBelow pairs (maxLen pairs) p.length +
        cntIn pairs p.length * 2 ^ (maxLen pairs - p.length.toNat) ≤
        2 ^ maxLen pairs := by
      rw [← htot, sum_split3 pairs (maxLen pairs) p.length, sum_filter_eq_cnt]
      omega
    have hbound : (cN + 1) * 2 ^ (maxLen pairs - p.length.toNat) ≤
        2 ^ maxLen pairs := by
      have h1 : (cN + 1) * 2 ^ (maxLen pairs - p.length.toNat) =
          sumBelow pairs (maxLen pairs) p.length +
            (cntIn done p.length + 1) * 2 ^ (maxLen pairs - p.length.toNat) := by
        rw [Nat.add_mul, Nat.add_mul, hscale]
        ring
      rw [h1]
      calc sumBelow pairs (maxLen pairs) p.length +
            (cntIn done p.length + 1) * 2 ^ (maxLen pairs - p.length.toNat)
          ≤ sumBelow pairs (maxLen pairs) p.length +
            cntIn pairs p.length * 2 ^ (maxLen pairs - p.length.toNat) := by
            have := Nat.mul_le_mul_right (2 ^ (maxLen pairs - p.length.toNat)) hcnt_ge
            omega
        _ ≤ 2 ^ maxLen pairs := hbound2
    have hcN : cN + 1 ≤ 2 ^ p.length.toNat := by
      have hsplitpow : 2 ^ maxLen pairs =
          2 ^ p.length.toNat * 2 ^ (maxLen pairs - p.length.toNat) := by
        rw [← pow_add]
        congr 1
        omega
      rw [hsplitpow] at hbound
      exact Nat.le_of_mul_le_mul_right hbound (Nat.pos_pow_of_pos _ (by omega))
    have hnewA : ((done ++ [p]).map (lenWeight (maxLen pairs))).sum =
        (cN + 1) * 2 ^ (maxLen pairs - p.length.toNat) := by
      rw [List.map_append, List.sum_append, hA]
      simp only [List.map_cons, List.map_nil, List.sum_cons, List.sum_nil]
      rw [lenWeight]
      ring
    have hbits : codeBits p.length ((cN : Int)) = natCode p.length.toNat cN :=
      codeBits_natCast p.length cN (by omega)
    have htgood' : ∀ s c,
        alGet s (alInsert p.symbol (codeBits p.length ((cN : Int))) tbl) = some c →
        ∃ lv : Nat × Nat,
          1 ≤ lv.1 ∧ lv.1 ≤ maxLen pairs ∧ lv.2 + 1 ≤ 2 ^ lv.1 ∧
          c = natCode lv.1 lv.2 ∧
          (lv.2 + 1) * 2 ^ (maxLen pairs - lv.1) ≤
            ((done ++ [p]).map (lenWeight (maxLen pairs))).sum := by
      intro s c hc
      by_cases hs : s = p.symbol
      · rw [hs, alGet_alInsert_self, Option.some.injEq] at hc
        refine ⟨(p.length.toNat, cN), by omega, hpL, hcN, by rw [← hc, hbits], ?_⟩
        rw [hnewA]
      · rw [alGet_alInsert_ne hs] at hc
        obtain ⟨lv, hl1, hl2, hl3, hl4, hl5⟩ := htgood s c hc
        refine ⟨lv, hl1, hl2, hl3, hl4, ?_⟩
        rw [List.map_append, List.sum_append]
        omega
    have htpair' : ∀ s1 s2 c1 c2, s1 ≠ s2 →
        alGet s1 (alInsert p.symbol (codeBits p.length ((cN : Int))) tbl) = some c1 →
        alGet s2 (alInsert p.symbol (codeBits p.length ((cN : Int))) tbl) = some c2 →
        leadOf c1 c2 = false := by
      intro s1 s2 c1 c2 hne h1 h2
      by_cases hs1 : s1 = p.symbol
      · rw [hs1, alGet_alInsert_self, Option.some.injEq] at h1
        have hs2 : s2 ≠ p.symbol := by rw [← hs1]; exact fun h => hne h.symm
        rw [alGet_alInsert_ne hs2] at h2
        obtain ⟨lv, hl1, hl2, hl3, hl4, hl5⟩ := htgood s2 c2 h2
        have hdisj : (lv.2 + 1) * 2 ^ (maxLen pairs - lv.1) ≤
            cN * 2 ^ (maxLen pairs - p.length.toNat) := by
          rw [← hA]
          exact hl5
        have := natCode_nonLead hl2 hpL hl3 hcN hdisj
        rw [← h1, hbits, hl4]
        exact this.2
      · rw [alGet_alInsert_ne hs1] at h1
        by_cases hs2 : s2 = p.symbol
        · rw [hs2, alGet_alInsert_self, Option.some.injEq] at h2
          obtain ⟨lv, hl1, hl2, hl3, hl4, hl5⟩ := htgood s1 c1 h1
          have hdisj : (lv.2 + 1) * 2 ^ (maxLen pairs - lv.1) ≤
              cN * 2 ^ (maxLen pairs - p.length.toNat) := by
            rw [← hA]
            exact hl5
          have := natCode_nonLead hl2 hpL hl3 hcN hdisj
          rw [← h2, hbits, hl4]
          exact this.1
        · rw [alGet_alInsert_ne hs2] at h2
          exact htpair s1 s2 c1 c2 hne h1 h2
    have hminv' : ∀ l : Int, (∃ q ∈ rest2, q.length = l) →
        ∃ cM : Nat, alGet l (alInsert p.length (wrap32 ((cN : Int) + 1)) codes) =
          some ((cM : Int)) ∧
          cM * 2 ^ (maxLen pairs - l.toNat) =
            sumBelow pairs (maxLen pairs) l +
              cntIn (done ++ [p]) l * 2 ^ (maxLen pairs - l.toNat) := by
      intro l hl
      by_cases hleq : l = p.length
      · subst hleq
        have hwrapinc : wrap32 ((cN : Int) + 1) = (cN : Int) + 1 := by
          obtain ⟨q, hq, hql⟩ := hl
          have hqcnt : 0 < cntIn rest2 p.length := (cntIn_pos_iff _ _).mpr ⟨q, hq, hql⟩
          have hcnt2 : cntIn done p.length + 2 ≤ cntIn pairs p.length := by
            have hap := cntIn_append done (p :: rest2) p.length
            rw [← hsplit] at hap
            rw [hap, cntIn_cons, if_pos rfl]
            omega
          have hmul := Nat.mul_le_mul_right (2 ^ (maxLen pairs - p.length.toNat)) hcnt2
          have h1 : (cN + 2) * 2 ^ (maxLen pairs - p.length.toNat) ≤
              2 ^ maxLen pairs := by
            calc (cN + 2) * 2 ^ (maxLen pairs - p.length.toNat)
                = sumBelow pairs (maxLen pairs) p.length +
                  (cntIn done p.length + 2) * 2 ^ (maxLen pairs - p.length.toNat) := by
                  rw [Nat.add_mul, Nat.add_mul, hscale]
                  ring
              _ ≤ sumBelow pairs (maxLen pairs) p.length +
                  cntIn pairs p.length * 2 ^ (maxLen pairs - p.length.toNat) := by omega
              _ ≤ 2 ^ maxLen pairs := hbound2
          have hsplitpow2 : 2 ^ maxLen pairs =
              2 ^ p.length.toNat * 2 ^ (maxLen pairs - p.length.toNat) := by
            rw [← pow_add]
            congr 1
            omega
          rw [hsplitpow2] at h1
          have hcN2 : cN + 2 ≤ 2 ^ p.length.toNat :=
            Nat.le_of_mul_le_mul_right h1 (Nat.pos_pow_of_pos _ (by omega))
          have hppow : (2 : Nat) ^ p.length.toNat ≤ 2 ^ 30 :=
            Nat.pow_le_pow_right (by omega) (by omega)
          have h30 : (2 : Nat) ^ 30 = 1073741824 := by norm_num
          apply wrap32_eq_self (by omega)
          omega
        refine ⟨cN + 1, ?_, ?_⟩
        · rw [alGet_alInsert_self, hwrapinc]
          congr 1
        · have hcnt' : cntIn (done ++ [p]) p.length = cntIn done p.length + 1 := by
            rw [cntIn_append, cntIn_cons, if_pos rfl]
            simp [cntIn]
          rw [hcnt']
          have hexpand : (cN + 1) * 2 ^ (maxLen pairs - p.length.toNat) =
              cN * 2 ^ (maxLen pairs - p.length.toNat) +
                2 ^ (maxLen pairs - p.length.toNat) := by ring
          rw [hexpand, hscale]
          ring
      · obtain ⟨cM, hgetM, hscaleM⟩ :=
          hminv l (by obtain ⟨q, hq, hql⟩ := hl; exact ⟨q, List.mem_cons.mpr (Or.inr hq), hql⟩)
        refine ⟨cM, ?_, ?_⟩
        · rw [alGet_alInsert_ne hleq]
          exact hgetM
        · have hcnt' : cntIn (done ++ [p]) l = cntIn done l := by
            rw [cntIn_append, cntIn_cons, if_neg (fun h => hleq h.symm)]
            simp [cntIn]
          rw [hcnt']
          exact hscaleM
    exact ih (done ++ [p]) (alInsert p.length (wrap32 ((cN : Int) + 1)) codes)
      (alInsert p.symbol (codeBits p.length ((cN : Int))) tbl) tblF cF
      (by rw [hsplit, List.append_assoc]; rfl) hrun hminv' htgood' htpair'

/-- C2 counterexample.  Both inputs are in canonical order and their positive
lengths satisfy the Kraft equality, yet the built table is not prefix-free:
(1) lengths `{1, 3, 3, 3, 3}` (a gap at 2): `build_lengths_codes` shifts only
once per *present* length key, so symbol 65 gets code `0` and symbol 66 gets
`010`, of which `0` is a leading segment; (2) a length-0 record receives the
empty code, which is a leading segment of every other code. -/
theorem claim_C2_cex :
    (canonicalOrder [⟨65, 1⟩, ⟨66, 3⟩, ⟨67, 3⟩, ⟨68, 3⟩, ⟨69, 3⟩] ∧
      kraftEq [⟨65, 1⟩, ⟨66, 3⟩, ⟨67, 3⟩, ⟨68, 3⟩, ⟨69, 3⟩] ∧
      (buildHuffmanLut [⟨65, 1⟩, ⟨66, 3⟩, ⟨67, 3⟩, ⟨68, 3⟩, ⟨69, 3⟩]).map
        (fun lut => (alGet 65 lut.lookup_table, alGet 66 lut.lookup_table)) =
        some (some [false], some [false, true, false]) ∧
      leadOf [false] [false, true, false] = true) ∧
    (canonicalOrder [⟨88, 0⟩, ⟨65, 1⟩, ⟨66, 1⟩] ∧
      kraftEq [⟨88, 0⟩, ⟨65, 1⟩, ⟨66, 1⟩] ∧
      (buildHuffmanLut [⟨88, 0⟩, ⟨65, 1⟩, ⟨66, 1⟩]).map
        (fun lut => (alGet 88 lut.lookup_table, alGet 65 lut.lookup_table)) =
        some (some [], some [false]) ∧
      leadOf [] [false] = true) := by decide

/-- C2 (amended): for records supplied in canonical order whose lengths are
all positive and at most 30 (so the `i32` code arithmetic and the shift
amounts of the rendering loop stay in range), whose present lengths form a
gap-free consecutive range (the positive keys of the length-count map are
consecutive), and whose lengths satisfy the Kraft equality, the built lookup
table is prefix-free: codes of distinct symbols are never leading segments
of one another. -/
theorem claim_C2 (pairs : List SymbolLengthPair) (lut : HuffmanLUT)
    (hsort : canonicalOrder pairs)
    (hpos : ∀ p ∈ pairs, 1 ≤ p.length)
    (hlen : ∀ p ∈ pairs, p.length ≤ 30)
    (hcontig : keysContiguous pairs)
    (hkraft : kraftEq pairs)
    (hb : buildHuffmanLut pairs = some lut) :
    ∀ s1 s2 c1 c2, s1 ≠ s2 →
      alGet s1 lut.lookup_table = some c1 → alGet s2 lut.lookup_table = some c2 →
      leadOf c1 c2 = false := by
  have htot := kraft_total pairs hpos hkraft
  have hL30 := maxLen_le_of pairs hlen
  obtain ⟨codes, hcodes, hminv0⟩ := codes_init pairs hpos hcontig htot hL30
  rw [buildHuffmanLut, hcodes] at hb
  dsimp only at hb
  cases hrun : lutGo pairs codes [] with
  | none => rw [hrun] at hb; exact absurd hb (by simp)
  | some out =>
    obtain ⟨tbl, cF⟩ := out
    rw [hrun] at hb
    dsimp only at hb
    simp only [Option.some.injEq] at hb
    have hPW : List.Pairwise canonicalLe pairs :=
      List.chain'_iff_pairwise.mp (canonicalOrder_chain' pairs hsort)
    intro s1 s2 c1 c2 hne h1 h2
    rw [← hb] at h1 h2
    dsimp only at h1 h2
    refine lutGo_master pairs hPW hpos htot hL30 pairs [] codes [] tbl cF
      (by simp) hrun ?_ ?_ ?_ s1 s2 c1 c2 hne h1 h2
    · intro l hl
      obtain ⟨cN, hget, hscale⟩ := hminv0 l hl
      refine ⟨cN, hget, ?_⟩
      have hc0 : cntIn ([] : List SymbolLengthPair) l = 0 := rfl
      rw [hc0, hscale]
      ring
    · intro s c hc
      simp [alGet] at hc
    · intro a b x y _ hx _
      simp [alGet] at hx

theorem claim_C2_witness : leadOf [false] [true, false] = false :=
  claim_C2 [⟨65, 1⟩, ⟨66, 2⟩, ⟨67, 2⟩]
    ⟨[⟨65, 1⟩, ⟨66, 2⟩, ⟨67, 2⟩],
      [(65, [false]), (66, [true, false]), (67, [true, true])]⟩
    (by decide) (by decide) (by decide) (by decide) (by decide) (by decide)
    65 66 [false] [true, false] (by decide) (by decide) (by decide)
